import Mathlib

/-!
Verification development for the typetris simulation engine.

The Rust sources are shallowly embedded: u8 coordinates become Nat values
(with the two's-complement cast of an i8 offset and wrapping addition made
explicit where the source performs them), Vec becomes List, in-place loops
become index recursion, and randomness (dictionary words, spawn columns) is
injected as explicit parameters. Floating-point f64 timers are modelled by
exact rationals.
-/

namespace Typetris

/-- Models the two's-complement cast `other as u8` applied to an i8 value in
src/game/block/bounding_box.rs: a negative i8 d maps to d + 256. -/
def castU8 (d : Int) : Nat :=
  (d % 256).toNat

/-- Models the impl MixAdd of i8 for u8 in src/game/block/bounding_box.rs:
if the offset is negative the code computes self.saturating_sub(other as u8)
(Nat subtraction saturates at zero exactly like saturating_sub), otherwise
self + other as u8 (wrapping addition, made explicit with mod 256). -/
def mix_add (c : Nat) (d : Int) : Nat :=
  if d < 0 then c - castU8 d else (c + castU8 d) % 256

/-- Models BoardPosition from src/game/board.rs: a u8 grid coordinate pair,
origin top left. -/
structure BoardPosition where
  x : Nat
  y : Nat
deriving DecidableEq, Repr

/-- Models BoardPosition.mix_add: componentwise mix_add of an (i8, i8) offset. -/
def BoardPosition.mixAdd (p : BoardPosition) (dx dy : Int) : BoardPosition :=
  { x := mix_add p.x dx, y := mix_add p.y dy }

/-- Models the Ord impl for BoardPosition in src/game/board.rs: y descending,
then x ascending. -/
def BoardPosition.cmp (a b : BoardPosition) : Ordering :=
  match compare b.y a.y with
  | Ordering.eq => compare a.x b.x
  | ord => ord

/-- Models BoundingBox from src/game/block/bounding_box.rs. -/
structure BoundingBox where
  x : Nat
  y : Nat
  width : Nat
  height : Nat
deriving DecidableEq, Repr

/-- Models BoundingBox::shift: mix_add on the x and y fields. -/
def BoundingBox.shift (bb : BoundingBox) (dx dy : Int) : BoundingBox :=
  { bb with x := mix_add bb.x dx, y := mix_add bb.y dy }

/-- Models BoundingBox::intersect: boxes fail to intersect iff fully separated
along x or y; touching edges count as not intersecting. The u8 sums
x + width and y + height are modelled as plain Nat sums (the source relies on
them not overflowing). -/
def BoundingBox.intersect (a b : BoundingBox) : Bool :=
  !(a.x + a.width ≤ b.x || b.x + b.width ≤ a.x
    || a.y + a.height ≤ b.y || b.y + b.height ≤ a.y)

/-- Models the block State enum from src/game/block.rs, declared in the order
Settled, Falling, Interactable (the derived Ord uses this order). -/
inductive BState where
  | Settled
  | Falling
  | Interactable
deriving DecidableEq, Repr

/-- Rank of a BState for the derived Ord on the Rust enum. -/
def BState.rank : BState → Nat
  | BState.Settled => 0
  | BState.Falling => 1
  | BState.Interactable => 2

/-- Models BlockCell from src/game/block.rs: assigned u8 character, optional
typed character, absolute position. -/
structure BlockCell where
  assigned_char : Nat
  input_char : Option Nat
  position : BoardPosition
deriving DecidableEq, Repr

/-- Models BlockCell::is_correct: the typed character equals the assigned one. -/
def BlockCell.is_correct (c : BlockCell) : Bool :=
  match c.input_char with
  | none => false
  | some ic => ic == c.assigned_char

/-- Models Block from src/game/block.rs. -/
structure Block where
  state : BState
  cells : List BlockCell
  bounding_box : BoundingBox
deriving DecidableEq, Repr

/-- Models Block::new_line for ASCII text (the Some branch): one row of cells
at (x + i, y), bounding box (x, y, len, 1). The text is a list of u8 codes. -/
def Block.mk_line (st : BState) (text : List Nat) (x y : Nat) : Block :=
  { state := st
    cells := (List.range text.length).zip text |>.map fun p =>
      { assigned_char := p.2, input_char := none
        position := { x := x + p.1, y := y } }
    bounding_box := { x := x, y := y, width := text.length, height := 1 } }

/-- Models Block::new_line including its ASCII validation: returns none when
any character is not ASCII (code 128 or above). -/
def Block.new_line (st : BState) (text : List Nat) (x y : Nat) : Option Block :=
  if text.all (fun c => c < 128) then some (Block.mk_line st text x y) else none

/-- Models Block::is_settled. -/
def Block.is_settled (b : Block) : Bool :=
  b.state == BState.Settled

/-- Models Block::is_interactable. -/
def Block.is_interactable (b : Block) : Bool :=
  b.state == BState.Interactable

/-- Models Block::is_falling. -/
def Block.is_falling (b : Block) : Bool :=
  b.state == BState.Falling

/-- Models Block::is_correct: every cell is correct. -/
def Block.is_correct (b : Block) : Bool :=
  b.cells.all BlockCell.is_correct

/-- Models Block::is_movable: Interactable and fully correctly typed. -/
def Block.is_movable (b : Block) : Bool :=
  b.is_interactable && b.is_correct

/-- Models Block::shift: mix_add the bounding box and every cell position by
the same (i8, i8) offset. -/
def Block.shift (b : Block) (dx dy : Int) : Block :=
  { b with
    bounding_box := b.bounding_box.shift dx dy
    cells := b.cells.map fun c => { c with position := c.position.mixAdd dx dy } }

/-- Models Block::intersect: bounding-box pre-check, then true iff some cell
position is shared. -/
def Block.intersect (a b : Block) : Bool :=
  a.bounding_box.intersect b.bounding_box
    && a.cells.any fun ca => b.cells.any fun cb => ca.position == cb.position

/-- Helper for Block::add_char: fill the first cell whose input is empty,
returning none when every cell is already filled (mirrors the source loop). -/
def fillFirstEmpty (ch : Nat) : List BlockCell → Option (List BlockCell)
  | [] => none
  | c :: rest =>
    if c.input_char.isNone then
      some ({ c with input_char := some ch } :: rest)
    else
      (fillFirstEmpty ch rest).map (c :: ·)

/-- Models char::is_ascii_alphabetic on a character code. -/
def isAsciiAlphabetic (ch : Nat) : Bool :=
  (65 ≤ ch && ch ≤ 90) || (97 ≤ ch && ch ≤ 122)

/-- Models Block::add_char: accepted only for an Interactable block, an ASCII
letter, and a remaining empty cell; fills the first empty cell. The stored
value models `ch as u8`. -/
def Block.add_char (b : Block) (ch : Nat) : Block × Bool :=
  if isAsciiAlphabetic ch && b.is_interactable then
    match fillFirstEmpty (ch % 256) b.cells with
    | some cells => ({ b with cells := cells }, true)
    | none => (b, false)
  else
    (b, false)

/-- Helper for Block::delete_char: clear the last filled cell (the source
iterates the cells in reverse and clears the first filled one it meets). -/
def clearLastFilled : List BlockCell → Option (List BlockCell)
  | [] => none
  | c :: rest =>
    match clearLastFilled rest with
    | some rest' => some (c :: rest')
    | none =>
      if c.input_char.isSome then
        some ({ c with input_char := none } :: rest)
      else
        none

/-- Models Block::delete_char: accepted only while Interactable; clears the
last filled cell. -/
def Block.delete_char (b : Block) : Block × Bool :=
  if b.is_interactable then
    match clearLastFilled b.cells with
    | some cells => ({ b with cells := cells }, true)
    | none => (b, false)
  else
    (b, false)

/-- Models the board Msg enum from src/game/board.rs. -/
inductive Msg where
  | GameOver
  | BlocksSettled
  | Updated
deriving DecidableEq, Repr

/-- Models Board from src/game/board.rs: a list of blocks plus u8 dimensions. -/
structure Board where
  blocks : List Block
  width : Nat
  height : Nat
deriving DecidableEq, Repr

/-- Models Board::new with the Block::random draw injected: when
starts_with_one is set the board starts with the given (randomly drawn)
block, else empty. -/
def Board.new (width height : Nat) (starts_with_one : Bool) (blk : Block) : Board :=
  { blocks := if starts_with_one then [blk] else [], width := width, height := height }

/-- Loop body of Board::fall_tick from src/game/board.rs, as index recursion:
for each block from index i on that is not Settled (and not Interactable
unless include_inter), shift it down one row in place, then test
self.blocks.iter().any(|b| block.intersect(&b)) against the updated list
(the source iterates over every block, the shifted block itself included);
on intersection revert the shift, mark Settled, and return GameOver at once
when the block's y is 0. -/
def fall_tick_go (include_inter : Bool) :
    List Block → List Nat → Bool → Bool → List Block × Option Msg
  | blocks, [], newly_settled, has_update =>
    (blocks,
      if newly_settled then some Msg.BlocksSettled
      else if has_update then some Msg.Updated
      else none)
  | blocks, i :: rest, newly_settled, has_update =>
    match blocks[i]? with
    | none => fall_tick_go include_inter blocks rest newly_settled has_update
    | some block =>
      if block.is_settled || (!include_inter && block.is_interactable) then
        fall_tick_go include_inter blocks rest newly_settled has_update
      else
        let shifted := block.shift 0 1
        let blocks1 := blocks.set i shifted
        if blocks1.any (fun b => shifted.intersect b) then
          let reverted : Block := { shifted.shift 0 (-1) with state := BState.Settled }
          let blocks2 := blocks1.set i reverted
          if reverted.bounding_box.y == 0 then
            (blocks2, some Msg.GameOver)
          else
            fall_tick_go include_inter blocks2 rest true has_update
        else
          fall_tick_go include_inter blocks1 rest newly_settled true

/-- Models Board::fall_tick: runs the loop over the indices 0..len (the list
length is fixed by the loop header and preserved by every in-place update),
then reports BlocksSettled if any block newly settled, else Updated if any
moved, else nothing. -/
def Board.fall_tick (bd : Board) (include_inter : Bool) : Board × Option Msg :=
  let r := fall_tick_go include_inter bd.blocks (List.range bd.blocks.length) false false
  ({ bd with blocks := r.1 }, r.2)

/-- Models Board::get_focused_index: index of the first Interactable block. -/
def Board.get_focused_index (bd : Board) : Option Nat :=
  bd.blocks.findIdx? Block.is_interactable

/-- Models Board::get_focused: the first Interactable block. -/
def Board.get_focused (bd : Board) : Option Block :=
  bd.blocks.find? Block.is_interactable

/-- Models Board::spawn_block with the Block::random draw injected as an
explicit argument: pushes the given block. -/
def Board.spawn_block (bd : Board) (blk : Block) : Board :=
  { bd with blocks := bd.blocks ++ [blk] }

/-- Models Board::push_block. -/
def Board.push_block (bd : Board) (blk : Block) : Board :=
  { bd with blocks := bd.blocks ++ [blk] }

/-- Helper: replace the first Interactable block of a list by f applied to it,
mirroring iter_mut().find(|b| b.is_interactable()) followed by a mutation. -/
def mapFirstInteractable (f : Block → Block) : List Block → List Block
  | [] => []
  | b :: rest =>
    if b.is_interactable then f b :: rest
    else b :: mapFirstInteractable f rest

/-- Models Board::focus_next: demote the first Interactable block to Falling
and report true, else report false. -/
def Board.focus_next (bd : Board) : Board × Bool :=
  match bd.get_focused_index with
  | some _ =>
    ({ bd with blocks := mapFirstInteractable (fun b => { b with state := BState.Falling }) bd.blocks },
      true)
  | none => (bd, false)

/-- Models the mutation `self.blocks[focus_index].position.x -= 1` of
Board::left: the focused block's origin moves one cell left, and its cells
move with it (in the Block layout used by board.rs the cells follow the
block's position; here cells carry absolute positions, so they are shifted
by the same amount; the subtraction is guarded by x != 0, so plain Nat
subtraction is exact). -/
def Block.move_x_sub_one (b : Block) : Block :=
  { b with
    bounding_box := { b.bounding_box with x := b.bounding_box.x - 1 }
    cells := b.cells.map fun c => { c with position := { c.position with x := c.position.x - 1 } } }

/-- Models the mutation `self.blocks[focus_index].position.x += 1` of
Board::right, analogously to Block.move_x_sub_one. -/
def Block.move_x_add_one (b : Block) : Block :=
  { b with
    bounding_box := { b.bounding_box with x := b.bounding_box.x + 1 }
    cells := b.cells.map fun c => { c with position := { c.position with x := c.position.x + 1 } } }

/-- Models Board::left: refuse when no focused block, when it is not movable,
at the left edge, or when a Settled block in the leading Settled run of the
list (iter().take_while(|b| b.is_settled())) sits in the same row with its
right edge at the focused block's x; otherwise move one cell left. -/
def Board.left (bd : Board) : Board × Bool :=
  match bd.get_focused_index with
  | none => (bd, false)
  | some i =>
    match bd.blocks[i]? with
    | none => (bd, false)
    | some focus =>
      if !focus.is_movable then (bd, false)
      else
        let x := focus.bounding_box.x
        if x == 0 then (bd, false)
        else
          let y := focus.bounding_box.y
          if (bd.blocks.takeWhile Block.is_settled).any
              (fun b => b.bounding_box.y == y && b.bounding_box.x + b.bounding_box.width == x) then
            (bd, false)
          else
            ({ bd with blocks := bd.blocks.set i focus.move_x_sub_one }, true)

/-- Models Board::right: refuse when no focused block, when it is not movable,
at the right edge (right edge equal to the board width), or when a Settled
block in the leading Settled run of the list starts at the focused block's
right edge in the same row; otherwise move one cell right. -/
def Board.right (bd : Board) : Board × Bool :=
  match bd.get_focused_index with
  | none => (bd, false)
  | some i =>
    match bd.blocks[i]? with
    | none => (bd, false)
    | some focus =>
      if !focus.is_movable then (bd, false)
      else
        let x := focus.bounding_box.x + focus.bounding_box.width
        if x == bd.width then (bd, false)
        else
          let y := focus.bounding_box.y
          if (bd.blocks.takeWhile Block.is_settled).any
              (fun b => b.bounding_box.y == y && b.bounding_box.x == x) then
            (bd, false)
          else
            ({ bd with blocks := bd.blocks.set i focus.move_x_add_one }, true)

/-- Models the comparison of Board::sort: block state (Settled < Falling <
Interactable) first, then position (y descending, x ascending). -/
def block_cmp (a b : Block) : Ordering :=
  match compare a.state.rank b.state.rank with
  | Ordering.eq =>
    BoardPosition.cmp
      { x := a.bounding_box.x, y := a.bounding_box.y }
      { x := b.bounding_box.x, y := b.bounding_box.y }
  | ord => ord

/-- Total preorder used to model the stable Vec::sort_by of Board::sort. -/
def block_le (a b : Block) : Prop :=
  block_cmp a b ≠ Ordering.gt

instance : DecidableRel block_le := fun a b => by
  unfold block_le
  infer_instance

/-- Models Board::sort: a stable sort by block_cmp (Rust's Vec::sort_by is a
stable merge sort; insertion sort is stable for the same total preorder, so
the resulting list is identical). -/
def Board.sort (bd : Board) : Board :=
  { bd with blocks := List.insertionSort block_le bd.blocks }

/-- Models slice::chunk_by as used in Board::clear_completed: maximal runs of
adjacent elements related pairwise by p. -/
def chunkByAux (p : α → α → Bool) (prev : α) (acc : List α) : List α → List (List α)
  | [] => [acc.reverse]
  | b :: rest =>
    if p prev b then chunkByAux p b (b :: acc) rest
    else acc.reverse :: chunkByAux p b [b] rest

/-- Models slice::chunk_by (entry point). -/
def chunkBy (p : α → α → Bool) : List α → List (List α)
  | [] => []
  | b :: rest => chunkByAux p b [b] rest

/-- Models the windows(2) scan of Board::clear_completed: each adjacent pair
of blocks in the run must abut exactly (left block's right edge at the right
block's x). -/
def chain_abuts : List Block → Bool
  | [] => true
  | [_] => true
  | a :: b :: rest =>
    (a.bounding_box.x + a.bounding_box.width == b.bounding_box.x)
      && chain_abuts (b :: rest)

/-- Models the chunk scan of Board::clear_completed: walk the same-row runs of
the sorted list; stop at the first run whose first block is not Settled
(the source breaks out of the loop); skip runs not starting at x = 0; record
the run's row when the blocks abut with no gaps and the final block's right
edge equals the board width. -/
def scan_chunks (w : Nat) : List (List Block) → List Nat
  | [] => []
  | c :: rest =>
    match c with
    | [] => scan_chunks w rest
    | first :: _ =>
      if !first.is_settled then []
      else if first.bounding_box.x != 0 then scan_chunks w rest
      else
        match c.getLast? with
        | none => scan_chunks w rest
        | some lastb =>
          if chain_abuts c
              && (lastb.bounding_box.x + lastb.bounding_box.width == w) then
            first.bounding_box.y :: scan_chunks w rest
          else
            scan_chunks w rest

/-- Predicate of the chunk_by grouping in Board::clear_completed: two blocks
lie in the same row. -/
def same_row (a b : Block) : Bool :=
  a.bounding_box.y == b.bounding_box.y

/-- Rows recorded for removal by Board::clear_completed on a given board. -/
def Board.removal_rows (bd : Board) : List Nat :=
  scan_chunks bd.width (chunkBy same_row (List.insertionSort block_le bd.blocks))

/-- Models Board::clear_completed: sort, find completed rows, then extract
every block whose row was recorded (returning them in list order) while
demoting every remaining Settled block strictly above the lowest cleared row
(y smaller than the first recorded row) to Falling. When no row is complete
the board keeps the sorted list and nothing is returned. -/
def Board.clear_completed (bd : Board) : Board × List Block :=
  let sorted := List.insertionSort block_le bd.blocks
  let removals := bd.removal_rows
  match removals.head? with
  | none => ({ bd with blocks := sorted }, [])
  | some max_y =>
    let removed := sorted.filter fun b => removals.contains b.bounding_box.y
    let kept := sorted.filterMap fun b =>
      if removals.contains b.bounding_box.y then none
      else if b.is_settled && b.bounding_box.y < max_y then
        some { b with state := BState.Falling }
      else
        some b
    ({ bd with blocks := kept }, removed)

/-- Loop of Game::add_char's delegation: get_focused_mut locates the first
Interactable block and Block::add_char mutates it in place. -/
def add_char_go (ch : Nat) : List Block → List Block × Bool
  | [] => ([], false)
  | b :: rest =>
    if b.is_interactable then
      let r := b.add_char ch
      (r.1 :: rest, r.2)
    else
      let r := add_char_go ch rest
      (b :: r.1, r.2)

/-- Models Game::add_char's delegation: Board.get_focused_mut followed by
Block::add_char on the focused block, a no-op reporting false when no block
is focused. -/
def Board.add_char (bd : Board) (ch : Nat) : Board × Bool :=
  let r := add_char_go ch bd.blocks
  ({ bd with blocks := r.1 }, r.2)

/-- Loop of Game::delete_char's delegation, analogous to add_char_go. -/
def delete_char_go : List Block → List Block × Bool
  | [] => ([], false)
  | b :: rest =>
    if b.is_interactable then
      let r := b.delete_char
      (r.1 :: rest, r.2)
    else
      let r := delete_char_go rest
      (b :: r.1, r.2)

/-- Models Game::delete_char's delegation: Board.get_focused_mut followed by
Block::delete_char on the focused block. -/
def Board.delete_char (bd : Board) : Board × Bool :=
  let r := delete_char_go bd.blocks
  ({ bd with blocks := r.1 }, r.2)

/-- Positions of a block's cells. -/
def block_positions (b : Block) : List BoardPosition :=
  b.cells.map BlockCell.position

/-- Models the no_overlap test helper of src/game/board.rs: the flattened list
of all cell positions of all blocks holds no duplicate. -/
def Board.no_overlap (bd : Board) : Prop :=
  (bd.blocks.flatMap block_positions).Nodup

instance (bd : Board) : Decidable bd.no_overlap := by
  unfold Board.no_overlap
  infer_instance

/-- Models the timer Msg struct from src/game/timer.rs. -/
structure TimerMsg where
  should_spawn : Bool
  should_fall : Bool
  should_drift : Bool
deriving DecidableEq, Repr

/-- Models Timer from src/game/timer.rs. The f64 countdowns are modelled by
exact rationals; drift_interval and fall_count are u8 tick counters. -/
structure Timer where
  drift_interval : Nat
  fall_count : Nat
  fall_interval : Rat
  spawn_interval : Rat
  spawn_timer : Rat
  fall_timer : Rat
  last_delta : Rat
deriving DecidableEq, Repr

/-- Models Timer::new: countdowns start at their intervals, the fall counter
at the drift interval. -/
def Timer.new (fall_interval spawn_interval : Rat) (drift_interval : Nat) : Timer :=
  { drift_interval := drift_interval
    fall_count := drift_interval
    fall_interval := fall_interval
    spawn_interval := spawn_interval
    spawn_timer := spawn_interval
    fall_timer := fall_interval
    last_delta := 0 }

/-- Models Timer::tick: subtract the delta from both countdowns; a countdown
at or below zero fires its signal and is replenished by its interval; a fall
additionally decrements the fall counter (u8 decrement, modelled by Nat
subtraction), and whenever the counter is zero the drift signal fires and
the counter resets to the drift interval. -/
def Timer.tick (t : Timer) (delta : Rat) : Timer × TimerMsg :=
  let fall_timer := t.fall_timer - delta
  let spawn_timer := t.spawn_timer - delta
  let should_spawn : Bool := spawn_timer ≤ 0
  let should_fall : Bool := fall_timer ≤ 0
  let spawn_timer := if should_spawn then spawn_timer + t.spawn_interval else spawn_timer
  let fall_timer := if should_fall then fall_timer + t.fall_interval else fall_timer
  let fall_count := if should_fall then t.fall_count - 1 else t.fall_count
  let should_drift : Bool := fall_count == 0
  let fall_count := if fall_count == 0 then t.drift_interval else fall_count
  ({ t with
      spawn_timer := spawn_timer
      fall_timer := fall_timer
      fall_count := fall_count
      last_delta := delta },
    { should_spawn := should_spawn, should_fall := should_fall, should_drift := should_drift })

/-- Models Settings from src/game/settings.rs (intervals as rationals). -/
structure Settings where
  width : Nat
  height : Nat
  starts_with_one : Bool
  starts_with_splash : Bool
  fall_interval : Rat
  spawn_interval : Rat
  drift_interval : Nat
deriving DecidableEq, Repr

/-- Models the Default impl for Settings. -/
def Settings.default : Settings :=
  { width := 12
    height := 16
    starts_with_one := true
    starts_with_splash := false
    fall_interval := 100
    spawn_interval := 4000
    drift_interval := 8 }

/-- Models the game State enum from src/game/mod.rs. -/
inductive GState where
  | Splash
  | Playing
  | GameOver
deriving DecidableEq, Repr

/-- Models Game from src/game/mod.rs. -/
structure Game where
  settings : Settings
  state : GState
  board : Board
  timer : Timer
  score : Nat
deriving DecidableEq, Repr

/-- Character codes of the decorative splash words, built with Block.mk_line
exactly as Game::splash pushes them. -/
def splash_board : Board :=
  let b0 : Board := { blocks := [], width := 12, height := 16 }
  let typing0 := Block.mk_line BState.Interactable [116, 121, 112, 105, 110, 103] 5 12
  let typing1 := (typing0.add_char 116).1
  let typing2 := (typing1.add_char 121).1
  let typing3 := (typing2.add_char 105).1
  let typing4 := (typing3.add_char 110).1
  let b1 := b0.push_block (Block.mk_line BState.Interactable [84, 121, 112, 101, 116, 114, 105, 115] 2 0)
  let b2 := b1.push_block (Block.mk_line BState.Interactable [73, 116, 39, 115] 0 4)
  let b3 := b2.push_block (Block.mk_line BState.Interactable [108, 105, 107, 101] 3 5)
  let b4 := b3.push_block (Block.mk_line BState.Interactable [84, 101, 116, 114, 105, 115] 6 6)
  let b5 := b4.push_block (Block.mk_line BState.Interactable [98, 117, 116] 8 8)
  let b6 := b5.push_block (Block.mk_line BState.Interactable [109, 97, 107, 101] 4 9)
  let b7 := b6.push_block (Block.mk_line BState.Interactable [105, 116] 2 10)
  let b8 := b7.push_block (Block.mk_line BState.Interactable [97] 4 11)
  let b9 := b8.push_block typing4
  let b10 := b9.push_block (Block.mk_line BState.Settled [103, 97, 109, 101] 4 15)
  b10.sort

/-- Models Game::splash: the decorative Splash-mode instance; its settings are
the defaults with width 12 and height 16. -/
def Game.splash : Game :=
  let s := { Settings.default with width := 12, height := 16 }
  { settings := s
    state := GState.Splash
    board := splash_board
    timer := Timer.new s.fall_interval s.spawn_interval s.drift_interval
    score := 0 }

/-- Models Game::new with the Board::new random draw injected: with
starts_with_splash set, the splash instance is built and its settings
replaced by the given ones with the splash flag cleared; otherwise a Playing
instance with a fresh board, timer, and zero score. -/
def Game.new (s : Settings) (blk : Block) : Game :=
  if s.starts_with_splash then
    { Game.splash with settings := { s with starts_with_splash := false } }
  else
    { settings := s
      state := GState.Playing
      board := Board.new s.width s.height s.starts_with_one blk
      timer := Timer.new s.fall_interval s.spawn_interval s.drift_interval
      score := 0 }

/-- Modelled from the spec: Board::find_max_y is referenced by Game::tick and
the board tests but its definition is not among the sources. Per the spec,
after a spawn the game checks whether the new block "already collides at row
0 (board overfull)"; per the find_max_y test comment, only Settled blocks
are considered. This predicate holds when the freshly spawned block, shifted
down one row, would intersect a Settled block, i.e. it would settle at row 0. -/
def Board.stuck_at_row_zero (bd : Board) (blk : Block) : Bool :=
  bd.blocks.any fun b => b.is_settled && (blk.shift 0 1).intersect b

/-- Count of distinct row y-values among a list of blocks, modelling
cleared.iter().map(|b| b.y()).collect::<BTreeSet<_>>().len(). -/
def distinct_rows (bs : List Block) : Nat :=
  ((bs.map fun b => b.bounding_box.y).eraseDups).length

/-- Models Game::tick with the spawned block injected: advance the timer; on
should_fall run Board::fall_tick (with should_drift as its argument), map
GameOver to the GameOver state, BlocksSettled to a clear_completed pass that
adds the count of distinct cleared rows to the score; on should_spawn push
the spawned block and enter GameOver when it is stuck at row 0. Returns the
changed flag that the source returns. -/
def Game.tick (g : Game) (delta : Rat) (spawned : Block) : Game × Bool :=
  let tr := g.timer.tick delta
  let timer_msg := tr.2
  let g0 := { g with timer := tr.1 }
  let fr :=
    if timer_msg.should_fall then
      let ft := g0.board.fall_tick timer_msg.should_drift
      match ft.2 with
      | some Msg.GameOver => ({ g0 with board := ft.1, state := GState.GameOver }, true)
      | some Msg.BlocksSettled =>
        let cc := ft.1.clear_completed
        ({ g0 with board := cc.1, score := g0.score + distinct_rows cc.2 }, true)
      | some Msg.Updated => ({ g0 with board := ft.1 }, true)
      | none => ({ g0 with board := ft.1 }, false)
    else
      (g0, false)
  let g1 := fr.1
  if timer_msg.should_spawn then
    let bd := g1.board.spawn_block spawned
    if bd.stuck_at_row_zero spawned then
      ({ g1 with board := bd, state := GState.GameOver }, true)
    else
      ({ g1 with board := bd }, true)
  else
    (g1, fr.2)

/-- Models the Event enum from src/game/mod.rs, with the randomness of
spawning (on Tick) and of NewGame's board reconstruction injected into the
event, and the Tick delta as an exact rational. -/
inductive GEvent where
  | Tick (delta : Rat) (spawned : Block)
  | TypeCh (ch : Nat)
  | Delete
  | Next
  | Left
  | Right
  | NewGame (blk : Block)

/-- Models Game::handle_event: NewGame reconstructs the game from the stored
settings in any state; every other event only acts while Playing and is
otherwise a no-op reporting false. -/
def Game.handle_event (g : Game) (e : GEvent) : Game × Bool :=
  match e with
  | GEvent.NewGame blk => (Game.new g.settings blk, true)
  | e =>
    if g.state == GState.Playing then
      match e with
      | GEvent.Tick delta spawned => g.tick delta spawned
      | GEvent.TypeCh ch =>
        let r := g.board.add_char ch
        ({ g with board := r.1 }, r.2)
      | GEvent.Delete =>
        let r := g.board.delete_char
        ({ g with board := r.1 }, r.2)
      | GEvent.Next =>
        let r := g.board.focus_next
        ({ g with board := r.1 }, r.2)
      | GEvent.Left =>
        let r := g.board.left
        ({ g with board := r.1 }, r.2)
      | GEvent.Right =>
        let r := g.board.right
        ({ g with board := r.1 }, r.2)
      | GEvent.NewGame blk => (Game.new g.settings blk, true)
    else
      (g, false)

/-- Number of Interactable blocks on a board. -/
def count_interactable (bd : Board) : Nat :=
  (bd.blocks.filter Block.is_interactable).length

/-- Constraint satisfied by every block produced by Block::random(width):
an Interactable one-row block built from a nonempty ASCII dictionary word of
length at most the board width, placed at row 0 at a column that keeps it on
the board. -/
def SpawnedBlock (w : Nat) (blk : Block) : Prop :=
  ∃ text x, blk = Block.mk_line BState.Interactable text x 0
    ∧ text ≠ [] ∧ (∀ c ∈ text, c < 128) ∧ x + text.length ≤ w

/-- Board states reachable through the public Game/Board operations named by
the spec: construction, spawning (with any block Block::random could
produce), typing, focus release, left/right movement, fall ticks, and row
clearing. -/
inductive Reachable : Board → Prop where
  | new (w h : Nat) (s : Bool) (blk : Block) :
      SpawnedBlock w blk → Reachable (Board.new w h s blk)
  | spawn {bd : Board} (blk : Block) :
      Reachable bd → SpawnedBlock bd.width blk → Reachable (bd.spawn_block blk)
  | type {bd : Board} (ch : Nat) : Reachable bd → Reachable (bd.add_char ch).1
  | del {bd : Board} : Reachable bd → Reachable (bd.delete_char).1
  | next {bd : Board} : Reachable bd → Reachable (bd.focus_next).1
  | move_left {bd : Board} : Reachable bd → Reachable (bd.left).1
  | move_right {bd : Board} : Reachable bd → Reachable (bd.right).1
  | fall {bd : Board} (inc : Bool) : Reachable bd → Reachable (bd.fall_tick inc).1
  | clear {bd : Board} : Reachable bd → Reachable (bd.clear_completed).1

/-- Game states reachable through construction and Game::handle_event. -/
inductive GameReachable : Game → Prop where
  | new (s : Settings) (blk : Block) : GameReachable (Game.new s blk)
  | step {g : Game} (e : GEvent) : GameReachable g → GameReachable (g.handle_event e).1

/-- Demo block: the single-letter word at column 0, row 0. -/
def demo_blk : Block :=
  Block.mk_line BState.Interactable [97] 0 0

/-- Board reached by: new 4x4 board, spawn a one-letter word at column 1,
release it (Next), spawn a one-letter word at column 2, type its letter,
then move left. The released block is still at row 0, so the left move puts
the focused block on top of it: Board::left only scans the leading Settled
run of the list for occupancy and never checks Falling blocks. -/
def overlap_demo_board : Board :=
  (((((Board.new 4 4 false demo_blk).spawn_block
        (Block.mk_line BState.Interactable [98] 1 0)).focus_next.1.spawn_block
        (Block.mk_line BState.Interactable [97] 2 0)).add_char 97).1.left).1

/-- Board with a lone Falling one-letter block at (0, 5) on a 4x8 board. -/
def lone_falling_board : Board :=
  { blocks := [Block.mk_line BState.Falling [97] 0 5], width := 4, height := 8 }

/-- Board whose single same-row run mixes a Settled and a Falling block that
together tile the width exactly. -/
def mixed_row_board : Board :=
  { blocks := [Block.mk_line BState.Settled [97, 98] 0 5,
               Block.mk_line BState.Falling [99, 100] 2 5]
    width := 4
    height := 8 }

/-- Board whose block list is a Falling block, then a Settled block at (0, 5)
with right edge 1, then a movable focused block at (1, 5). -/
def prefix_gap_board : Board :=
  { blocks := [Block.mk_line BState.Falling [102] 0 0,
               Block.mk_line BState.Settled [115] 0 5,
               ((Block.mk_line BState.Interactable [97] 1 5).add_char 97).1]
    width := 4
    height := 8 }

/-- Board with a lone Falling one-letter block on the bottom row of a 4x4
board. -/
def bottom_row_board : Board :=
  { blocks := [Block.mk_line BState.Falling [98] 0 3], width := 4, height := 4 }

/-- Board reached from a fresh empty 4x4 board by two spawns in a row, the
second arriving while the first block is still focused. -/
def two_focus_board : Board :=
  ((Board.new 4 4 false demo_blk).spawn_block
      (Block.mk_line BState.Interactable [97] 0 0)).spawn_block
    (Block.mk_line BState.Interactable [98] 2 0)

/-- Timer state after the first tick(0.7) of a Timer::new(1.0, 2.0, 2). -/
def timer_s1 : Timer :=
  { drift_interval := 2
    fall_count := 2
    fall_interval := 1
    spawn_interval := 2
    spawn_timer := 1.3
    fall_timer := 0.3
    last_delta := 0.7 }

/-- Timer state after the second tick(0.7). -/
def timer_s2 : Timer :=
  { drift_interval := 2
    fall_count := 1
    fall_interval := 1
    spawn_interval := 2
    spawn_timer := 0.6
    fall_timer := 0.6
    last_delta := 0.7 }

/-- Board on which, per the spec, the Falling block would land beside the
Settled one on the bottom row and complete it on the following tick. -/
def pre_clear_board : Board :=
  { blocks := [Block.mk_line BState.Settled [97, 110] 0 3,
               Block.mk_line BState.Falling [110, 121] 2 2]
    width := 4
    height := 4 }

/-- Game holding pre_clear_board while Playing, with a timer about to fire a
fall signal. -/
def pre_clear_game : Game :=
  { settings := Settings.default
    state := GState.Playing
    board := pre_clear_board
    timer := Timer.new 1 4 4
    score := 0 }

/-- Timer state of pre_clear_game after tick(2). -/
def pre_clear_timer_after : Timer :=
  { drift_interval := 4
    fall_count := 3
    fall_interval := 1
    spawn_interval := 4
    spawn_timer := 2
    fall_timer := 0
    last_delta := 2 }

/-- Focused movable one-letter block at the left edge of a 4-wide board. -/
def c4_wit_blk : Block :=
  ((Block.mk_line BState.Interactable [97] 0 1).add_char 97).1

/-- Board holding only c4_wit_blk. -/
def c4_wit_board : Board :=
  { blocks := [c4_wit_blk], width := 4, height := 4 }

def block_interval (b : Block) : Finset Nat :=
  Finset.Ico b.bounding_box.x (b.bounding_box.x + b.bounding_box.width)

def row_union : List Block → Finset Nat
  | [] => ∅
  | b :: rest => block_interval b ∪ row_union rest

def row_covers (row : List Block) (c : Nat) : Prop :=
  ∃ b ∈ row, b.bounding_box.x ≤ c ∧ c < b.bounding_box.x + b.bounding_box.width

def tiles (w : Nat) (row : List Block) : Prop :=
  row ≠ []
  ∧ (row.map fun b => b.bounding_box.width).sum = w
  ∧ ∀ c, c < w → row_covers row c

def row_blocks (bd : Board) (y : Nat) : List Block :=
  bd.blocks.filter fun b => b.bounding_box.y == y

def row_complete (bd : Board) (y : Nat) : Prop :=
  tiles bd.width (row_blocks bd y)

instance (w : Nat) (row : List Block) : Decidable (tiles w row) := by
  unfold tiles row_covers
  infer_instance

instance (bd : Board) (y : Nat) : Decidable (row_complete bd y) := by
  unfold row_complete
  infer_instance

def c3_wit_board : Board :=
  { blocks := [Block.mk_line BState.Settled [97, 98] 0 5,
               Block.mk_line BState.Settled [99, 100] 2 5,
               Block.mk_line BState.Settled [120] 0 3]
    width := 4
    height := 8 }

/-- C1: the claim states that no reachable board state has two cells of
distinct blocks sharing a Position. Counterexample: the board reached by
spawning a word at column 1, releasing it, spawning a word at column 2,
typing it, and moving left is reachable, yet its two blocks both hold the
cell (1, 0) because Board::left checks occupancy only against the leading
Settled run of the block list. -/
theorem reachable_board_with_overlapping_cells :
    Reachable overlap_demo_board ∧ ¬ overlap_demo_board.no_overlap := by
  constructor
  · exact Reachable.move_left
      (Reachable.type 97
        (Reachable.spawn _
          (Reachable.next
            (Reachable.spawn _
              (Reachable.new 4 4 false demo_blk
                ⟨[97], 0, rfl, by decide, by decide, by decide⟩)
              ⟨[98], 1, rfl, by decide, by decide, by decide⟩))
          ⟨[97], 2, rfl, by decide, by decide, by decide⟩))
  · decide

/-- C2: the claim (and the repository's own fall tests) say a lone Falling
block away from the floor moves down one row and fall_tick reports Updated.
The code instead tests the shifted block against every block including
itself, so the self-intersection settles it at once, and the revert shift's
broken i8-to-u8 cast teleports it to row 0, producing GameOver: on the
board with one Falling block at (0, 5), fall_tick returns GameOver and
leaves the block Settled at (0, 0). -/
theorem fall_tick_settles_lone_falling_block_at_row_zero :
    lone_falling_board.fall_tick false
      = ({ blocks := [Block.mk_line BState.Settled [97] 0 0], width := 4, height := 8 },
          some Msg.GameOver) := by
  decide

/-- C3: the claim states a row is removed only when composed entirely of
Settled blocks (and that a partially filled row is never removed).
Counterexample: on a width-4 board holding a Settled two-letter block at
(0, 5) and a Falling two-letter block at (2, 5), clear_completed removes
both blocks of row 5 — the run's completeness check only inspects the first
block's Settled state, and the row's Settled blocks alone cover just
columns 0..1. -/
theorem clear_completed_removes_row_with_falling_block :
    ((mixed_row_board.clear_completed).2.any fun b => !b.is_settled) = true
    ∧ (mixed_row_board.clear_completed).2.length = 2
    ∧ (mixed_row_board.clear_completed).1.blocks = [] := by
  decide

/-- C4: the claim states a left call is refused whenever an adjacent Settled
block in the same row occupies the destination cell. Counterexample: with a
Falling block stored before the Settled neighbour, the take_while(Settled)
occupancy scan stops at the Falling block, so the call succeeds and moves
the focused block onto the Settled block's cell. -/
theorem left_moves_onto_settled_block_behind_falling :
    (prefix_gap_board.left).2 = true
    ∧ (prefix_gap_board.blocks.any fun b =>
        b.is_settled && b.bounding_box.y == 5
          && b.bounding_box.x + b.bounding_box.width == 1) = true
    ∧ ¬ (prefix_gap_board.left).1.no_overlap := by
  decide

/-- C6: the claim says a block whose downward shift would cross the bottom
boundary is settled at its current position. The code has no floor check at
all: on a 4x4 board with a Falling block on the bottom row (0, 3),
fall_tick does not settle it at (0, 3) but — through the reflexive
intersection test and the broken revert cast — leaves it Settled at (0, 0)
and reports GameOver. -/
theorem fall_tick_ignores_floor_and_teleports_to_top :
    bottom_row_board.fall_tick true
      = ({ blocks := [Block.mk_line BState.Settled [98] 0 0], width := 4, height := 4 },
          some Msg.GameOver) := by
  decide

/-- C7: the claim says shifting a u8 coordinate by a negative i8 offset d
yields max(c - |d|, 0), in particular c - 1 for d = -1 and c at least 1.
The code computes self.saturating_sub(other as u8), and the two's-complement
cast sends -1 to 255: for every u8 coordinate c the result of shifting by
-1 is 0, not c - 1. -/
theorem mix_add_negative_offset_zeroes_coordinate (c : Nat) (h : c ≤ 255) :
    mix_add c (-1) = 0 := by
  have h255 : ((-1 : Int) % 256).toNat = 255 := by decide
  simp [mix_add, castU8, h255]
  omega

/-- Witness for mix_add_negative_offset_zeroes_coordinate at c = 5: the claim
would give 4, the code gives 0. -/
theorem mix_add_negative_offset_witness :
    5 ≤ 255 ∧ mix_add 5 (-1) = 0 :=
  ⟨by decide, mix_add_negative_offset_zeroes_coordinate 5 (by decide)⟩

/-- C8: the claim states at most one block is Interactable in every reachable
state and that spawning preserves this even while a block is focused.
Counterexample: spawn_block appends a new Interactable block
unconditionally, so two consecutive spawns reach a board with two
Interactable blocks. -/
theorem spawn_while_focused_yields_two_interactable :
    Reachable two_focus_board ∧ count_interactable two_focus_board = 2 := by
  constructor
  · exact Reachable.spawn _
      (Reachable.spawn _
        (Reachable.new 4 4 false demo_blk ⟨[97], 0, rfl, by decide, by decide, by decide⟩)
        ⟨[97], 0, rfl, by decide, by decide, by decide⟩)
      ⟨[98], 2, rfl, by decide, by decide, by decide⟩
  · decide

/-- First tick(0.7): no signal fires. -/
theorem timer_first_tick : (Timer.new 1 2 2).tick 0.7 = (timer_s1, ⟨false, false, false⟩) := by
  simp only [Timer.new, Timer.tick, timer_s1]
  norm_num

/-- Second tick(0.7): the fall countdown crosses zero, only should_fall fires. -/
theorem timer_second_tick : timer_s1.tick 0.7 = (timer_s2, ⟨false, true, false⟩) := by
  simp only [Timer.tick, timer_s1, timer_s2]
  norm_num

/-- Third tick(0.8): fall and spawn countdowns cross zero and the second fall
brings the drift counter to zero. -/
theorem timer_third_tick : (timer_s2.tick 0.8).2 = ⟨true, true, true⟩ := by
  simp only [Timer.tick, timer_s2]
  norm_num

/-- C9: a Timer built with fall_interval 1.0, spawn_interval 2.0 and
drift_interval 2 reports no signals on tick(0.7), only should_fall on the
second tick(0.7), and should_fall, should_spawn and should_drift together on
the following tick(0.8). The f64 countdowns are modelled by exact rationals;
every compared value in this run is at least 0.2 away from zero. -/
theorem timer_example_sequence :
    ((Timer.new 1 2 2).tick 0.7).2 = ⟨false, false, false⟩
    ∧ (((Timer.new 1 2 2).tick 0.7).1.tick 0.7).2 = ⟨false, true, false⟩
    ∧ ((((Timer.new 1 2 2).tick 0.7).1.tick 0.7).1.tick 0.8).2 = ⟨true, true, true⟩ := by
  refine ⟨?_, ?_, ?_⟩
  · rw [timer_first_tick]
  · rw [timer_first_tick, timer_second_tick]
  · rw [timer_first_tick, timer_second_tick, timer_third_tick]

/-- Timer evaluation for the pre_clear_game tick: only should_fall fires. -/
theorem pre_clear_timer_tick :
    pre_clear_game.timer.tick 2 = (pre_clear_timer_after, ⟨false, true, false⟩) := by
  simp only [pre_clear_game, Timer.new, Timer.tick, pre_clear_timer_after]
  norm_num

/-- C5: the claim ties score increases to fall_tick reporting BlocksSettled
followed by clear_completed. In the code as written fall_tick never reports
BlocksSettled: the first block it settles is always teleported to row 0 by
the broken revert shift, which reports GameOver instead. On a game one fall
away from completing its bottom row, a Tick leaves the score at 0 and ends
the game, with the Falling block resettled at row 0. -/
theorem tick_reports_game_over_instead_of_scoring :
    ((pre_clear_game.tick 2 demo_blk).1.score = 0)
    ∧ ((pre_clear_game.tick 2 demo_blk).1.state = GState.GameOver)
    ∧ ((pre_clear_game.tick 2 demo_blk).1.board.blocks
        = [Block.mk_line BState.Settled [97, 110] 0 3,
           Block.mk_line BState.Settled [110, 121] 2 0]) := by
  simp only [Game.tick, pre_clear_timer_tick]
  decide

/-- Construction clears the splash flag in the stored settings, in both the
splash and the non-splash branch of Game::new. -/
theorem game_new_splash_flag (s : Settings) (blk : Block) :
    (Game.new s blk).settings.starts_with_splash = false := by
  by_cases h : s.starts_with_splash <;> simp [Game.new, h]

/-- Game::tick never touches the stored settings. -/
theorem tick_settings (g : Game) (d : Rat) (sp : Block) :
    (g.tick d sp).1.settings = g.settings := by
  unfold Game.tick
  dsimp only
  repeat' split
  all_goals rfl

/-- Game::handle_event keeps the splash flag of the stored settings cleared. -/
theorem handle_event_splash_flag (g : Game) (e : GEvent)
    (hg : g.settings.starts_with_splash = false) :
    (g.handle_event e).1.settings.starts_with_splash = false := by
  cases e with
  | NewGame blk => exact game_new_splash_flag g.settings blk
  | Tick d sp =>
    by_cases hp : g.state == GState.Playing
    · simp only [Game.handle_event, hp, if_true]
      rw [tick_settings]
      exact hg
    · simp only [Game.handle_event, hp, if_false]
      exact hg
  | TypeCh ch =>
    by_cases hp : g.state == GState.Playing <;> simp [Game.handle_event, hp, hg]
  | Delete =>
    by_cases hp : g.state == GState.Playing <;> simp [Game.handle_event, hp, hg]
  | Next =>
    by_cases hp : g.state == GState.Playing <;> simp [Game.handle_event, hp, hg]
  | Left =>
    by_cases hp : g.state == GState.Playing <;> simp [Game.handle_event, hp, hg]
  | Right =>
    by_cases hp : g.state == GState.Playing <;> simp [Game.handle_event, hp, hg]

/-- Every reachable game stores settings whose splash flag is cleared. -/
theorem game_reachable_splash_flag {g : Game} (h : GameReachable g) :
    g.settings.starts_with_splash = false := by
  induction h with
  | new s blk => exact game_new_splash_flag s blk
  | step e hg ih => exact handle_event_splash_flag _ e ih

/-- C10: handle_event(NewGame) always leaves a reachable game Playing with
score 0 and a board rebuilt from the stored settings — never in Splash,
because construction stores the settings with the splash flag cleared and no
event ever sets it. -/
theorem new_game_always_enters_playing {g : Game} (h : GameReachable g) (blk : Block) :
    ((g.handle_event (GEvent.NewGame blk)).1.state = GState.Playing)
    ∧ ((g.handle_event (GEvent.NewGame blk)).1.score = 0)
    ∧ ((g.handle_event (GEvent.NewGame blk)).1.board
        = Board.new g.settings.width g.settings.height g.settings.starts_with_one blk) := by
  have hs := game_reachable_splash_flag h
  simp [Game.handle_event, Game.new, hs]

/-- Witness for new_game_always_enters_playing at a freshly constructed
default game. -/
theorem new_game_enters_playing_witness :
    ((Game.new Settings.default demo_blk).handle_event (GEvent.NewGame demo_blk)).1.state
      = GState.Playing :=
  (new_game_always_enters_playing (GameReachable.new Settings.default demo_blk) demo_blk).1

/-- Filling the first empty cell leaves every cell position unchanged. -/
theorem fillFirstEmpty_positions (ch : Nat) :
    ∀ (cs cs' : List BlockCell), fillFirstEmpty ch cs = some cs' →
      cs'.map BlockCell.position = cs.map BlockCell.position := by
  intro cs
  induction cs with
  | nil => intro cs' h; simp [fillFirstEmpty] at h
  | cons c rest ih =>
    intro cs' h
    unfold fillFirstEmpty at h
    by_cases hc : c.input_char.isNone
    · rw [if_pos hc] at h
      injection h with h
      subst h
      simp
    · rw [if_neg hc] at h
      cases hr : fillFirstEmpty ch rest with
      | none => rw [hr] at h; simp at h
      | some rest' =>
        rw [hr] at h
        simp only [Option.map_some'] at h
        injection h with h
        subst h
        simp [ih rest' hr]

/-- Clearing the last filled cell leaves every cell position unchanged. -/
theorem clearLastFilled_positions :
    ∀ (cs cs' : List BlockCell), clearLastFilled cs = some cs' →
      cs'.map BlockCell.position = cs.map BlockCell.position := by
  intro cs
  induction cs with
  | nil => intro cs' h; simp [clearLastFilled] at h
  | cons c rest ih =>
    intro cs' h
    unfold clearLastFilled at h
    cases hr : clearLastFilled rest with
    | some rest' =>
      rw [hr] at h
      injection h with h
      subst h
      simp [ih rest' hr]
    | none =>
      rw [hr] at h
      by_cases hc : c.input_char.isSome
      · rw [if_pos hc] at h
        injection h with h
        subst h
        simp
      · rw [if_neg hc] at h
        simp at h

/-- Block::add_char never moves cells. -/
theorem add_char_positions (b : Block) (ch : Nat) :
    block_positions (b.add_char ch).1 = block_positions b := by
  unfold Block.add_char
  by_cases hif : (isAsciiAlphabetic ch && b.is_interactable) = true
  · rw [if_pos hif]
    cases hfill : fillFirstEmpty (ch % 256) b.cells with
    | none => rfl
    | some cells => simpa [block_positions] using fillFirstEmpty_positions _ _ _ hfill
  · rw [if_neg hif]

/-- Block::delete_char never moves cells. -/
theorem delete_char_positions (b : Block) :
    block_positions (b.delete_char).1 = block_positions b := by
  unfold Block.delete_char
  by_cases hif : b.is_interactable = true
  · rw [if_pos hif]
    cases hfill : clearLastFilled b.cells with
    | none => rfl
    | some cells => simpa [block_positions] using clearLastFilled_positions _ _ hfill
  · rw [if_neg hif]

/-- Typing into the focused block leaves every block's cell positions as they
were. -/
theorem add_char_go_positions (ch : Nat) :
    ∀ l : List Block, (add_char_go ch l).1.map block_positions = l.map block_positions := by
  intro l
  induction l with
  | nil => rfl
  | cons b rest ih =>
    unfold add_char_go
    by_cases hb : b.is_interactable = true
    · simp [hb, add_char_positions]
    · simp [hb, ih]

/-- Deleting from the focused block leaves every block's cell positions as
they were. -/
theorem delete_char_go_positions :
    ∀ l : List Block, (delete_char_go l).1.map block_positions = l.map block_positions := by
  intro l
  induction l with
  | nil => rfl
  | cons b rest ih =>
    unfold delete_char_go
    by_cases hb : b.is_interactable = true
    · simp [hb, delete_char_positions]
    · simp [hb, ih]

/-- Rewriting the first Interactable block with a position-preserving function
leaves every block's cell positions as they were. -/
theorem mapFirstInteractable_positions (f : Block → Block)
    (hf : ∀ b, block_positions (f b) = block_positions b) :
    ∀ l : List Block, (mapFirstInteractable f l).map block_positions = l.map block_positions := by
  intro l
  induction l with
  | nil => rfl
  | cons b rest ih =>
    unfold mapFirstInteractable
    by_cases hb : b.is_interactable = true
    · simp [hb, hf]
    · simp [hb, ih]

/-- Equal per-block position lists give equal flattened position lists. -/
theorem flatMap_positions_congr {l₁ l₂ : List Block}
    (h : l₁.map block_positions = l₂.map block_positions) :
    l₁.flatMap block_positions = l₂.flatMap block_positions := by
  rw [List.flatMap_def, List.flatMap_def, h]

/-- The extraction pass of clear_completed only removes blocks or changes
their state, so the flattened cell positions form a sublist of the sorted
list's. -/
theorem clear_filterMap_sublist (removals : List Nat) (max_y : Nat) :
    ∀ l : List Block,
      List.Sublist
        ((l.filterMap fun b =>
          if removals.contains b.bounding_box.y then none
          else if b.is_settled && b.bounding_box.y < max_y then some { b with state := BState.Falling }
          else some b).flatMap block_positions)
        (l.flatMap block_positions) := by
  intro l
  induction l with
  | nil => simp
  | cons b rest ih =>
    rw [List.filterMap_cons]
    by_cases h1 : removals.contains b.bounding_box.y = true
    · simp only [h1, if_true, List.flatMap_cons]
      exact ih.trans (List.sublist_append_right _ _)
    · by_cases h2 : (b.is_settled && decide (b.bounding_box.y < max_y)) = true
      · simp only [h1, h2, if_true, Bool.false_eq_true, if_false, List.flatMap_cons]
        exact List.Sublist.append_left ih _
      · simp only [h1, h2, Bool.false_eq_true, if_false, List.flatMap_cons]
        exact List.Sublist.append_left ih _

/-- Board::clear_completed preserves overlap-freedom: it permutes the blocks
(sort), removes some, and demotes others without moving cells. -/
theorem clear_completed_no_overlap (bd : Board) (h : bd.no_overlap) :
    (bd.clear_completed).1.no_overlap := by
  have hperm : List.Perm ((List.insertionSort block_le bd.blocks).flatMap block_positions)
      (bd.blocks.flatMap block_positions) :=
    (List.perm_insertionSort block_le bd.blocks).flatMap_right block_positions
  have hsorted : ((List.insertionSort block_le bd.blocks).flatMap block_positions).Nodup :=
    hperm.nodup_iff.mpr h
  simp only [Board.clear_completed]
  split
  · exact hsorted
  · exact (clear_filterMap_sublist _ _ _).nodup hsorted

/-- C1 (amended): the claimed invariant fails for spawning and for left/right
moves, but typing, focus release, and row clearing do preserve it: on any
overlap-free board, add_char, delete_char, focus_next, and clear_completed
yield overlap-free boards. -/
theorem no_overlap_preserved_by_typing_focus_and_clear (bd : Board) (h : bd.no_overlap) :
    (∀ ch : Nat, (bd.add_char ch).1.no_overlap)
    ∧ (bd.delete_char).1.no_overlap
    ∧ (bd.focus_next).1.no_overlap
    ∧ (bd.clear_completed).1.no_overlap := by
  refine ⟨?_, ?_, ?_, clear_completed_no_overlap bd h⟩
  · intro ch
    show ((bd.add_char ch).1.blocks.flatMap block_positions).Nodup
    have he : (bd.add_char ch).1.blocks = (add_char_go ch bd.blocks).1 := rfl
    rw [he, flatMap_positions_congr (add_char_go_positions ch bd.blocks)]
    exact h
  · show ((bd.delete_char).1.blocks.flatMap block_positions).Nodup
    have he : (bd.delete_char).1.blocks = (delete_char_go bd.blocks).1 := rfl
    rw [he, flatMap_positions_congr (delete_char_go_positions bd.blocks)]
    exact h
  · unfold Board.focus_next
    split
    · show ((mapFirstInteractable (fun b => { b with state := BState.Falling })
          bd.blocks).flatMap block_positions).Nodup
      rw [flatMap_positions_congr
        (mapFirstInteractable_positions (fun b => { b with state := BState.Falling })
          (fun b => rfl) bd.blocks)]
      exact h
    · exact h

/-- Witness for no_overlap_preserved_by_typing_focus_and_clear at a concrete
two-block overlap-free board. -/
theorem no_overlap_preservation_witness :
    ({ blocks := [Block.mk_line BState.Settled [97] 0 3,
                  Block.mk_line BState.Interactable [98] 2 1],
       width := 4, height := 4 } : Board).no_overlap
    ∧ (({ blocks := [Block.mk_line BState.Settled [97] 0 3,
                     Block.mk_line BState.Interactable [98] 2 1],
          width := 4, height := 4 } : Board).clear_completed).1.no_overlap :=
  ⟨by decide,
    (no_overlap_preserved_by_typing_focus_and_clear _ (by decide)).2.2.2⟩

/-- Replacing a list entry by a non-Interactable block never increases the
Interactable count. -/
theorem count_inter_set_le (b' : Block) (hb' : b'.is_interactable = false) :
    ∀ (l : List Block) (i : Nat),
      ((l.set i b').filter Block.is_interactable).length
        ≤ (l.filter Block.is_interactable).length := by
  intro l
  induction l with
  | nil => intro i; simp
  | cons b rest ih =>
    intro i
    cases i with
    | zero =>
      simp only [List.set_cons_zero, List.filter_cons]
      cases hb : b.is_interactable <;> simp [hb, hb']
    | succ n =>
      simp only [List.set_cons_succ, List.filter_cons]
      cases hb : b.is_interactable <;> simp [hb] <;> exact ih n

theorem count_inter_set_eq (b b' : Block) (hb' : b'.is_interactable = b.is_interactable) :
    ∀ (l : List Block) (i : Nat), l[i]? = some b →
      ((l.set i b').filter Block.is_interactable).length
        = (l.filter Block.is_interactable).length := by
  intro l
  induction l with
  | nil => intro i h; simp at h
  | cons c rest ih =>
    intro i h
    cases i with
    | zero =>
      simp only [List.getElem?_cons_zero, Option.some.injEq] at h
      subst h
      simp only [List.set_cons_zero, List.filter_cons, hb']
      cases hc : c.is_interactable <;> simp [hc]
    | succ n =>
      simp only [List.getElem?_cons_succ] at h
      simp only [List.set_cons_succ, List.filter_cons]
      cases hc : c.is_interactable <;> simp [hc, ih n h]

theorem fall_tick_go_count (inc : Bool) :
    ∀ (idxs : List Nat) (blocks : List Block) (ns hu : Bool),
      ((fall_tick_go inc blocks idxs ns hu).1.filter Block.is_interactable).length
        ≤ (blocks.filter Block.is_interactable).length := by
  intro idxs
  induction idxs with
  | nil => intro blocks ns hu; simp [fall_tick_go]
  | cons i rest ih =>
    intro blocks ns hu
    unfold fall_tick_go
    cases hbi : blocks[i]? with
    | none => exact ih blocks ns hu
    | some block =>
      dsimp only
      by_cases hskip : (block.is_settled || (!inc && block.is_interactable)) = true
      · rw [if_pos hskip]
        exact ih blocks ns hu
      · rw [if_neg hskip]
        by_cases hint : ((blocks.set i (block.shift 0 1)).any fun b => (block.shift 0 1).intersect b) = true
        · rw [if_pos hint]
          by_cases hy0 : (({ block.shift 0 1 |>.shift 0 (-1) with state := BState.Settled } : Block).bounding_box.y == 0) = true
          · rw [if_pos hy0]
            calc (((blocks.set i (block.shift 0 1)).set i _).filter Block.is_interactable).length
                ≤ ((blocks.set i (block.shift 0 1)).filter Block.is_interactable).length :=
                  count_inter_set_le
                    { (block.shift 0 1).shift 0 (-1) with state := BState.Settled } rfl _ i
              _ = (blocks.filter Block.is_interactable).length :=
                  count_inter_set_eq block (block.shift 0 1) rfl blocks i hbi
          · rw [if_neg hy0]
            calc (((fall_tick_go inc ((blocks.set i (block.shift 0 1)).set i _) rest true hu).1.filter Block.is_interactable)).length
                ≤ (((blocks.set i (block.shift 0 1)).set i _).filter Block.is_interactable).length := ih _ true hu
              _ ≤ ((blocks.set i (block.shift 0 1)).filter Block.is_interactable).length :=
                  count_inter_set_le
                    { (block.shift 0 1).shift 0 (-1) with state := BState.Settled } rfl _ i
              _ = (blocks.filter Block.is_interactable).length :=
                  count_inter_set_eq block (block.shift 0 1) rfl blocks i hbi
        · rw [if_neg hint]
          calc ((fall_tick_go inc (blocks.set i (block.shift 0 1)) rest ns true).1.filter Block.is_interactable).length
              ≤ ((blocks.set i (block.shift 0 1)).filter Block.is_interactable).length := ih _ ns true
            _ = (blocks.filter Block.is_interactable).length :=
                count_inter_set_eq block (block.shift 0 1) rfl blocks i hbi

theorem count_inter_append (l : List Block) (blk : Block) :
    ((l ++ [blk]).filter Block.is_interactable).length
      = (l.filter Block.is_interactable).length + (if blk.is_interactable then 1 else 0) := by
  cases hb : blk.is_interactable <;> simp [List.filter_append, hb]

theorem count_inter_mapFirst_demote :
    ∀ l : List Block,
      ((mapFirstInteractable (fun b => { b with state := BState.Falling }) l).filter
          Block.is_interactable).length
        ≤ (l.filter Block.is_interactable).length := by
  intro l
  induction l with
  | nil => simp [mapFirstInteractable]
  | cons b rest ih =>
    unfold mapFirstInteractable
    by_cases hb : b.is_interactable = true
    · rw [if_pos hb]
      have hd : ({ b with state := BState.Falling } : Block).is_interactable = false := rfl
      simp only [List.filter_cons, hd, hb, Bool.false_eq_true, if_false, if_true]
      simp [Nat.le_succ_of_le]
    · rw [if_neg hb]
      simp only [List.filter_cons, hb, Bool.false_eq_true, if_false]
      exact ih

theorem count_inter_clear_filterMap (removals : List Nat) (max_y : Nat) :
    ∀ l : List Block,
      ((l.filterMap fun b =>
        if removals.contains b.bounding_box.y then none
        else if b.is_settled && b.bounding_box.y < max_y then some { b with state := BState.Falling }
        else some b).filter Block.is_interactable).length
        ≤ (l.filter Block.is_interactable).length := by
  intro l
  induction l with
  | nil => simp
  | cons b rest ih =>
    rw [List.filterMap_cons]
    have hstep : (rest.filter Block.is_interactable).length
        ≤ ((b :: rest).filter Block.is_interactable).length := by
      simp only [List.filter_cons]
      cases hb : b.is_interactable <;> simp [hb, Nat.le_succ_of_le]
    have hstep2 : (rest.filter Block.is_interactable).length
        ≤ (if b.is_interactable = true then b :: rest.filter Block.is_interactable
            else rest.filter Block.is_interactable).length := by
      simpa only [List.filter_cons] using hstep
    by_cases h1 : removals.contains b.bounding_box.y = true
    · simp only [h1, if_true]
      exact ih.trans hstep
    · by_cases h2 : (b.is_settled && decide (b.bounding_box.y < max_y)) = true
      · simp only [h1, h2, if_true, Bool.false_eq_true, if_false]
        have hd : ({ b with state := BState.Falling } : Block).is_interactable = false := rfl
        simp only [List.filter_cons, hd, Bool.false_eq_true, if_false]
        exact ih.trans hstep2
      · simp only [h1, h2, Bool.false_eq_true, if_false]
        simp only [List.filter_cons]
        cases hb : b.is_interactable
        · simpa [hb] using ih
        · simpa [hb] using Nat.succ_le_succ ih

/-- C8 (amended): spawn_block always appends one more Interactable block —
also while a block is focused — while focus_next, fall_tick and
clear_completed never increase the number of Interactable blocks. -/
theorem interactable_count_spawn_adds_others_never_increase
    (bd : Board) (blk : Block) (inc : Bool) :
    (count_interactable (bd.spawn_block blk)
      = count_interactable bd + (if blk.is_interactable then 1 else 0))
    ∧ count_interactable (bd.focus_next).1 ≤ count_interactable bd
    ∧ count_interactable (bd.fall_tick inc).1 ≤ count_interactable bd
    ∧ count_interactable (bd.clear_completed).1 ≤ count_interactable bd := by
  refine ⟨count_inter_append bd.blocks blk, ?_, ?_, ?_⟩
  · unfold Board.focus_next
    split
    · exact count_inter_mapFirst_demote bd.blocks
    · exact Nat.le_refl _
  · exact fall_tick_go_count inc (List.range bd.blocks.length) bd.blocks false false
  · have hsorted : ((List.insertionSort block_le bd.blocks).filter Block.is_interactable).length
        = (bd.blocks.filter Block.is_interactable).length :=
      ((List.perm_insertionSort block_le bd.blocks).filter Block.is_interactable).length_eq
    simp only [Board.clear_completed]
    split
    · exact Nat.le_of_eq hsorted
    · exact (count_inter_clear_filterMap _ _ _).trans (Nat.le_of_eq hsorted)

/-- Board::left refused calls leave the board untouched (every refusal path
returns before mutating). -/
theorem left_false_unchanged (bd : Board) : (bd.left).2 = false → (bd.left).1 = bd := by
  unfold Board.left
  cases hf : bd.get_focused_index with
  | none => intro _; rfl
  | some i =>
    dsimp only
    cases hb : bd.blocks[i]? with
    | none => intro _; rfl
    | some focus =>
      dsimp only
      by_cases hm : (!focus.is_movable) = true
      · rw [if_pos hm]; intro _; rfl
      · rw [if_neg hm]
        by_cases hx : (focus.bounding_box.x == 0) = true
        · rw [if_pos hx]; intro _; rfl
        · rw [if_neg hx]
          by_cases hadj : ((bd.blocks.takeWhile Block.is_settled).any fun b =>
              b.bounding_box.y == focus.bounding_box.y
                && b.bounding_box.x + b.bounding_box.width == focus.bounding_box.x) = true
          · rw [if_pos hadj]; intro _; rfl
          · rw [if_neg hadj]; intro hcontra; simp at hcontra

theorem left_true_iff (bd : Board) : (bd.left).2 = true ↔
    ∃ i focus, bd.get_focused_index = some i ∧ bd.blocks[i]? = some focus
      ∧ focus.is_movable = true
      ∧ focus.bounding_box.x ≠ 0
      ∧ ((bd.blocks.takeWhile Block.is_settled).any fun b =>
          b.bounding_box.y == focus.bounding_box.y
            && b.bounding_box.x + b.bounding_box.width == focus.bounding_box.x) = false := by
  unfold Board.left
  cases hf : bd.get_focused_index with
  | none =>
    simp only [Bool.false_eq_true, false_iff]
    rintro ⟨j, focus, hj, -⟩
    exact Option.noConfusion hj
  | some i =>
    dsimp only
    cases hb : bd.blocks[i]? with
    | none =>
      simp only [Bool.false_eq_true, false_iff]
      rintro ⟨j, focus, hj, hbj, -⟩
      injection hj with hj
      subst hj
      rw [hb] at hbj
      exact Option.noConfusion hbj
    | some focus =>
      dsimp only
      by_cases hm : (!focus.is_movable) = true
      · rw [if_pos hm]
        simp only [Bool.false_eq_true, false_iff]
        rintro ⟨j, focus', hj, hbj, hmov, -⟩
        injection hj with hj
        subst hj
        rw [hb] at hbj
        injection hbj with hbj
        subst hbj
        simp [hmov] at hm
      · rw [if_neg hm]
        by_cases hx : (focus.bounding_box.x == 0) = true
        · rw [if_pos hx]
          simp only [Bool.false_eq_true, false_iff]
          rintro ⟨j, focus', hj, hbj, -, hxne, -⟩
          injection hj with hj
          subst hj
          rw [hb] at hbj
          injection hbj with hbj
          subst hbj
          exact hxne (by simpa using hx)
        · rw [if_neg hx]
          by_cases hadj : ((bd.blocks.takeWhile Block.is_settled).any fun b =>
              b.bounding_box.y == focus.bounding_box.y
                && b.bounding_box.x + b.bounding_box.width == focus.bounding_box.x) = true
          · rw [if_pos hadj]
            simp only [Bool.false_eq_true, false_iff]
            rintro ⟨j, focus', hj, hbj, -, -, hscan⟩
            injection hj with hj
            subst hj
            rw [hb] at hbj
            injection hbj with hbj
            subst hbj
            rw [hadj] at hscan
            exact Bool.noConfusion hscan
          · rw [if_neg hadj]
            simp only [true_iff]
            refine ⟨i, focus, rfl, hb, ?_, ?_, ?_⟩
            · cases hmv : focus.is_movable
              · rw [hmv] at hm; simp at hm
              · rfl
            · intro h0
              exact hx (by simp [h0])
            · cases hval : ((bd.blocks.takeWhile Block.is_settled).any fun b =>
                  b.bounding_box.y == focus.bounding_box.y
                    && b.bounding_box.x + b.bounding_box.width == focus.bounding_box.x)
              · rfl
              · exact absurd hval hadj

theorem left_true_moves (bd : Board) (i : Nat) (focus : Block)
    (hf : bd.get_focused_index = some i) (hb : bd.blocks[i]? = some focus) :
    (bd.left).2 = true → (bd.left).1.blocks = bd.blocks.set i focus.move_x_sub_one := by
  unfold Board.left
  rw [hf]
  dsimp only
  rw [hb]
  dsimp only
  by_cases hm : (!focus.is_movable) = true
  · rw [if_pos hm]; intro h; simp at h
  · rw [if_neg hm]
    by_cases hx : (focus.bounding_box.x == 0) = true
    · rw [if_pos hx]; intro h; simp at h
    · rw [if_neg hx]
      by_cases hadj : ((bd.blocks.takeWhile Block.is_settled).any fun b =>
          b.bounding_box.y == focus.bounding_box.y
            && b.bounding_box.x + b.bounding_box.width == focus.bounding_box.x) = true
      · rw [if_pos hadj]; intro h; simp at h
      · rw [if_neg hadj]; intro _; rfl

theorem right_false_unchanged (bd : Board) : (bd.right).2 = false → (bd.right).1 = bd := by
  unfold Board.right
  cases hf : bd.get_focused_index with
  | none => intro _; rfl
  | some i =>
    dsimp only
    cases hb : bd.blocks[i]? with
    | none => intro _; rfl
    | some focus =>
      dsimp only
      by_cases hm : (!focus.is_movable) = true
      · rw [if_pos hm]; intro _; rfl
      · rw [if_neg hm]
        by_cases hx : (focus.bounding_box.x + focus.bounding_box.width == bd.width) = true
        · rw [if_pos hx]; intro _; rfl
        · rw [if_neg hx]
          by_cases hadj : ((bd.blocks.takeWhile Block.is_settled).any fun b =>
              b.bounding_box.y == focus.bounding_box.y
                && b.bounding_box.x == focus.bounding_box.x + focus.bounding_box.width) = true
          · rw [if_pos hadj]; intro _; rfl
          · rw [if_neg hadj]; intro hcontra; simp at hcontra

theorem right_true_iff (bd : Board) : (bd.right).2 = true ↔
    ∃ i focus, bd.get_focused_index = some i ∧ bd.blocks[i]? = some focus
      ∧ focus.is_movable = true
      ∧ focus.bounding_box.x + focus.bounding_box.width ≠ bd.width
      ∧ ((bd.blocks.takeWhile Block.is_settled).any fun b =>
          b.bounding_box.y == focus.bounding_box.y
            && b.bounding_box.x == focus.bounding_box.x + focus.bounding_box.width) = false := by
  unfold Board.right
  cases hf : bd.get_focused_index with
  | none =>
    simp only [Bool.false_eq_true, false_iff]
    rintro ⟨j, focus, hj, -⟩
    exact Option.noConfusion hj
  | some i =>
    dsimp only
    cases hb : bd.blocks[i]? with
    | none =>
      simp only [Bool.false_eq_true, false_iff]
      rintro ⟨j, focus, hj, hbj, -⟩
      injection hj with hj
      subst hj
      rw [hb] at hbj
      exact Option.noConfusion hbj
    | some focus =>
      dsimp only
      by_cases hm : (!focus.is_movable) = true
      · rw [if_pos hm]
        simp only [Bool.false_eq_true, false_iff]
        rintro ⟨j, focus', hj, hbj, hmov, -⟩
        injection hj with hj
        subst hj
        rw [hb] at hbj
        injection hbj with hbj
        subst hbj
        simp [hmov] at hm
      · rw [if_neg hm]
        by_cases hx : (focus.bounding_box.x + focus.bounding_box.width == bd.width) = true
        · rw [if_pos hx]
          simp only [Bool.false_eq_true, false_iff]
          rintro ⟨j, focus', hj, hbj, -, hxne, -⟩
          injection hj with hj
          subst hj
          rw [hb] at hbj
          injection hbj with hbj
          subst hbj
          exact hxne (by simpa using hx)
        · rw [if_neg hx]
          by_cases hadj : ((bd.blocks.takeWhile Block.is_settled).any fun b =>
              b.bounding_box.y == focus.bounding_box.y
                && b.bounding_box.x == focus.bounding_box.x + focus.bounding_box.width) = true
          · rw [if_pos hadj]
            simp only [Bool.false_eq_true, false_iff]
            rintro ⟨j, focus', hj, hbj, -, -, hscan⟩
            injection hj with hj
            subst hj
            rw [hb] at hbj
            injection hbj with hbj
            subst hbj
            rw [hadj] at hscan
            exact Bool.noConfusion hscan
          · rw [if_neg hadj]
            simp only [true_iff]
            refine ⟨i, focus, rfl, hb, ?_, ?_, ?_⟩
            · cases hmv : focus.is_movable
              · rw [hmv] at hm; simp at hm
              · rfl
            · intro h0
              exact hx (by simp [h0])
            · cases hval : ((bd.blocks.takeWhile Block.is_settled).any fun b =>
                  b.bounding_box.y == focus.bounding_box.y
                    && b.bounding_box.x == focus.bounding_box.x + focus.bounding_box.width)
              · rfl
              · exact absurd hval hadj

theorem right_true_moves (bd : Board) (i : Nat) (focus : Block)
    (hf : bd.get_focused_index = some i) (hb : bd.blocks[i]? = some focus) :
    (bd.right).2 = true → (bd.right).1.blocks = bd.blocks.set i focus.move_x_add_one := by
  unfold Board.right
  rw [hf]
  dsimp only
  rw [hb]
  dsimp only
  by_cases hm : (!focus.is_movable) = true
  · rw [if_pos hm]; intro h; simp at h
  · rw [if_neg hm]
    by_cases hx : (focus.bounding_box.x + focus.bounding_box.width == bd.width) = true
    · rw [if_pos hx]; intro h; simp at h
    · rw [if_neg hx]
      by_cases hadj : ((bd.blocks.takeWhile Block.is_settled).any fun b =>
          b.bounding_box.y == focus.bounding_box.y
            && b.bounding_box.x == focus.bounding_box.x + focus.bounding_box.width) = true
      · rw [if_pos hadj]; intro h; simp at h
      · rw [if_neg hadj]; intro _; rfl

/-- C4 (amended): left and right move the focused block exactly one cell and
only when it is movable; a call is refused at the board edge and when an
adjacent Settled block within the leading Settled run of the block list
occupies the destination cell in the same row (a Settled block stored after
a non-Settled block is not checked); every refused call leaves the board
unchanged. -/
theorem left_right_characterization (bd : Board) :
    ((bd.left).2 = false → (bd.left).1 = bd)
    ∧ ((bd.right).2 = false → (bd.right).1 = bd)
    ∧ ((bd.left).2 = true ↔
        ∃ i focus, bd.get_focused_index = some i ∧ bd.blocks[i]? = some focus
          ∧ focus.is_movable = true
          ∧ focus.bounding_box.x ≠ 0
          ∧ ((bd.blocks.takeWhile Block.is_settled).any fun b =>
              b.bounding_box.y == focus.bounding_box.y
                && b.bounding_box.x + b.bounding_box.width == focus.bounding_box.x) = false)
    ∧ ((bd.right).2 = true ↔
        ∃ i focus, bd.get_focused_index = some i ∧ bd.blocks[i]? = some focus
          ∧ focus.is_movable = true
          ∧ focus.bounding_box.x + focus.bounding_box.width ≠ bd.width
          ∧ ((bd.blocks.takeWhile Block.is_settled).any fun b =>
              b.bounding_box.y == focus.bounding_box.y
                && b.bounding_box.x == focus.bounding_box.x + focus.bounding_box.width) = false)
    ∧ (∀ i focus, bd.get_focused_index = some i → bd.blocks[i]? = some focus →
        (bd.left).2 = true → (bd.left).1.blocks = bd.blocks.set i focus.move_x_sub_one)
    ∧ (∀ i focus, bd.get_focused_index = some i → bd.blocks[i]? = some focus →
        (bd.right).2 = true → (bd.right).1.blocks = bd.blocks.set i focus.move_x_add_one) :=
  ⟨left_false_unchanged bd, right_false_unchanged bd, left_true_iff bd, right_true_iff bd,
    fun i focus hf hb => left_true_moves bd i focus hf hb,
    fun i focus hf hb => right_true_moves bd i focus hf hb⟩

/-- Witness for left_right_characterization: at the left edge the refused left
call leaves the board unchanged, and the accepted right call moves the
focused block exactly one cell right. -/
theorem left_right_characterization_witness :
    ((c4_wit_board.left).1 = c4_wit_board)
    ∧ ((c4_wit_board.right).1.blocks = c4_wit_board.blocks.set 0 c4_wit_blk.move_x_add_one) :=
  ⟨(left_right_characterization c4_wit_board).1 (by decide),
    (left_right_characterization c4_wit_board).2.2.2.2.2 0 c4_wit_blk
      (by decide) (by decide) (by decide)⟩

/-- Arithmetic form of the stable sort's total preorder on blocks. -/
theorem block_le_iff (a b : Block) : block_le a b ↔
    (a.state.rank < b.state.rank
      ∨ (a.state.rank = b.state.rank
          ∧ (b.bounding_box.y < a.bounding_box.y
              ∨ (a.bounding_box.y = b.bounding_box.y
                  ∧ a.bounding_box.x ≤ b.bounding_box.x)))) := by
  unfold block_le block_cmp BoardPosition.cmp
  rcases h1 : compare a.state.rank b.state.rank with h | h | h
  · have := Nat.compare_eq_lt.mp h1
    simp only []
    constructor
    · intro _; exact Or.inl this
    · intro _; exact fun hc => Ordering.noConfusion hc
  · have he := Nat.compare_eq_eq.mp h1
    rcases h2 : compare b.bounding_box.y a.bounding_box.y with g | g | g
    · have := Nat.compare_eq_lt.mp h2
      constructor
      · intro _; exact Or.inr ⟨he, Or.inl this⟩
      · intro _; exact fun hc => Ordering.noConfusion hc
    · have hye := Nat.compare_eq_eq.mp h2
      rcases h3 : compare a.bounding_box.x b.bounding_box.x with f | f | f
      · have := Nat.compare_eq_lt.mp h3
        constructor
        · intro _; exact Or.inr ⟨he, Or.inr ⟨hye.symm, Nat.le_of_lt this⟩⟩
        · intro _; exact fun hc => Ordering.noConfusion hc
      · have := Nat.compare_eq_eq.mp h3
        constructor
        · intro _; exact Or.inr ⟨he, Or.inr ⟨hye.symm, Nat.le_of_eq this⟩⟩
        · intro _; exact fun hc => Ordering.noConfusion hc
      · have hgt := Nat.compare_eq_gt.mp h3
        constructor
        · intro hc; exact absurd rfl hc
        · intro hor
          rcases hor with hlt | ⟨-, hy | ⟨-, hxle⟩⟩
          · omega
          · omega
          · omega
    · have hgt := Nat.compare_eq_gt.mp h2
      constructor
      · intro hc; exact absurd rfl hc
      · intro hor
        rcases hor with hlt | ⟨-, hy | ⟨hy, -⟩⟩
        · omega
        · omega
        · omega
  · have hgt := Nat.compare_eq_gt.mp h1
    constructor
    · intro hc; exact absurd rfl hc
    · intro hor
      rcases hor with hlt | ⟨heq, -⟩
      · omega
      · omega

instance : IsTotal Block block_le :=
  ⟨fun a b => by rw [block_le_iff, block_le_iff]; omega⟩

instance : IsTrans Block block_le :=
  ⟨fun a b c hab hbc => by
    rw [block_le_iff] at hab hbc ⊢
    omega⟩

theorem mem_row_union (row : List Block) (c : Nat) :
    c ∈ row_union row ↔ row_covers row c := by
  induction row with
  | nil => simp [row_union, row_covers]
  | cons b rest ih =>
    simp only [row_union, Finset.mem_union, block_interval, Finset.mem_Ico, ih,
      row_covers, List.mem_cons]
    constructor
    · rintro (⟨h1, h2⟩ | ⟨x, hx, h1, h2⟩)
      · exact ⟨b, Or.inl rfl, h1, h2⟩
      · exact ⟨x, Or.inr hx, h1, h2⟩
    · rintro ⟨x, hx | hx, h1, h2⟩
      · subst hx; exact Or.inl ⟨h1, h2⟩
      · exact Or.inr ⟨x, hx, h1, h2⟩

theorem row_union_card_le (row : List Block) :
    (row_union row).card ≤ (row.map fun b => b.bounding_box.width).sum := by
  induction row with
  | nil => simp [row_union]
  | cons b rest ih =>
    simp only [row_union, List.map_cons, List.sum_cons]
    calc (block_interval b ∪ row_union rest).card
        ≤ (block_interval b).card + (row_union rest).card := Finset.card_union_le _ _
      _ ≤ b.bounding_box.width + (rest.map fun b => b.bounding_box.width).sum := by
          have : (block_interval b).card = b.bounding_box.width := by
            simp [block_interval, Nat.card_Ico]
          omega

theorem chain_tiles :
    ∀ (row : List Block) (b : Block) (w : Nat),
      chain_abuts (b :: row) = true →
      ((b :: row).getLast (by simp)).bounding_box.x
        + ((b :: row).getLast (by simp)).bounding_box.width = w →
      b.bounding_box.x + ((b :: row).map fun x => x.bounding_box.width).sum = w
      ∧ ∀ c, b.bounding_box.x ≤ c → c < w → row_covers (b :: row) c := by
  intro row
  induction row with
  | nil =>
    intro b w _ hlast
    simp only [List.getLast_singleton] at hlast
    refine ⟨by simpa using hlast, ?_⟩
    intro c hc1 hc2
    exact ⟨b, List.mem_singleton_self b, hc1, by omega⟩
  | cons c rs ih =>
    intro b w hchain hlast
    have hchain' : (b.bounding_box.x + b.bounding_box.width == c.bounding_box.x) = true
        ∧ chain_abuts (c :: rs) = true := by
      simpa [chain_abuts] using hchain
    have habut : b.bounding_box.x + b.bounding_box.width = c.bounding_box.x := by
      simpa using hchain'.1
    have hlast' : ((c :: rs).getLast (by simp)).bounding_box.x
        + ((c :: rs).getLast (by simp)).bounding_box.width = w := by
      rw [← hlast]
      have hgl : (b :: c :: rs).getLast (by simp) = (c :: rs).getLast (by simp) :=
        List.getLast_cons (by simp)
      rw [hgl]
    obtain ⟨hsum, hcov⟩ := ih c w hchain'.2 hlast'
    constructor
    · simp only [List.map_cons, List.sum_cons] at hsum ⊢
      omega
    · intro col hc1 hc2
      by_cases hcol : col < c.bounding_box.x
      · exact ⟨b, List.mem_cons_self b _, hc1, by omega⟩
      · obtain ⟨x, hx, h1, h2⟩ := hcov col (by omega) hc2
        exact ⟨x, List.mem_cons_of_mem b hx, h1, h2⟩

theorem tiles_chain :
    ∀ (row : List Block) (b : Block) (s w : Nat),
      ((b :: row).Pairwise fun p q => p.bounding_box.x ≤ q.bounding_box.x) →
      (∀ x ∈ b :: row, 0 < x.bounding_box.width) →
      (∀ x ∈ b :: row, s ≤ x.bounding_box.x) →
      s + ((b :: row).map fun x => x.bounding_box.width).sum = w →
      (∀ c, s ≤ c → c < w → row_covers (b :: row) c) →
      b.bounding_box.x = s
      ∧ chain_abuts (b :: row) = true
      ∧ ((b :: row).getLast (by simp)).bounding_box.x
          + ((b :: row).getLast (by simp)).bounding_box.width = w := by
  intro row
  induction row with
  | nil =>
    intro b s w _ hwid hlow hsum hcov
    have hbw : 0 < b.bounding_box.width := hwid b (List.mem_singleton_self b)
    have hsw : s < w := by
      simp only [List.map_cons, List.map_nil, List.sum_cons, List.sum_nil] at hsum
      omega
    obtain ⟨x, hx, h1, h2⟩ := hcov s (Nat.le_refl s) hsw
    have hxb : x = b := by simpa using hx
    subst hxb
    have hxs : x.bounding_box.x = s := Nat.le_antisymm h1 (hlow x (List.mem_singleton_self x))
    refine ⟨hxs, rfl, ?_⟩
    simp only [List.getLast_singleton]
    simp only [List.map_cons, List.map_nil, List.sum_cons, List.sum_nil] at hsum
    omega
  | cons c rs ih =>
    intro b s w hsorted hwid hlow hsum hcov
    have hbw : 0 < b.bounding_box.width := hwid b (List.mem_cons_self b _)
    have hsw : s < w := by
      simp only [List.map_cons, List.sum_cons] at hsum
      omega
    -- the head starts exactly at s
    have hbx : b.bounding_box.x = s := by
      obtain ⟨x, hx, h1, h2⟩ := hcov s (Nat.le_refl s) hsw
      have hxs : x.bounding_box.x = s := Nat.le_antisymm h1 (hlow x hx)
      rcases List.mem_cons.mp hx with hxb | hxtail
      · rw [← hxb]; exact hxs
      · have hble : b.bounding_box.x ≤ x.bounding_box.x :=
          (List.pairwise_cons.mp hsorted).1 x hxtail
        have := hlow b (List.mem_cons_self b _)
        omega
    -- counting: the tail's intervals are disjoint from the head's
    have hcard_ge : w - s ≤ (block_interval b ∪ row_union (c :: rs)).card := by
      have hsub : Finset.Ico s w ⊆ block_interval b ∪ row_union (c :: rs) := by
        intro col hcol
        rw [Finset.mem_Ico] at hcol
        have hm := (mem_row_union (b :: c :: rs) col).mpr (hcov col hcol.1 hcol.2)
        simpa [row_union] using hm
      have hcc := Finset.card_le_card hsub
      simpa [Nat.card_Ico] using hcc
    have hinter : block_interval b ∩ row_union (c :: rs) = ∅ := by
      have hle1 : (row_union (c :: rs)).card
          ≤ ((c :: rs).map fun x => x.bounding_box.width).sum := row_union_card_le _
      have hbcard : (block_interval b).card = b.bounding_box.width := by
        simp [block_interval, Nat.card_Ico]
      have hcui : (block_interval b ∪ row_union (c :: rs)).card
            + (block_interval b ∩ row_union (c :: rs)).card
          = (block_interval b).card + (row_union (c :: rs)).card :=
        Finset.card_union_add_card_inter _ _
      have hsum' : b.bounding_box.width + ((c :: rs).map fun x => x.bounding_box.width).sum
          = w - s := by
        simp only [List.map_cons, List.sum_cons] at hsum ⊢
        omega
      have hboth : (block_interval b ∪ row_union (c :: rs)).card
            + (block_interval b ∩ row_union (c :: rs)).card ≤ w - s := by
        rw [hcui, hbcard, ← hsum']
        omega
      have hk : (block_interval b ∩ row_union (c :: rs)).card = 0 := by omega
      exact Finset.card_eq_zero.mp hk
    have htail_low : ∀ x ∈ c :: rs, s + b.bounding_box.width ≤ x.bounding_box.x := by
      intro x hx
      by_contra hlt
      push_neg at hlt
      have hx_in : x.bounding_box.x ∈ block_interval b ∩ row_union (c :: rs) := by
        rw [Finset.mem_inter]
        constructor
        · rw [block_interval, Finset.mem_Ico, hbx]
          exact ⟨hlow x (List.mem_cons_of_mem b hx), by omega⟩
        · rw [mem_row_union]
          exact ⟨x, hx, Nat.le_refl _, by have := hwid x (List.mem_cons_of_mem b hx); omega⟩
      rw [hinter] at hx_in
      exact absurd hx_in (Finset.not_mem_empty _)
    have htail_cov : ∀ col, s + b.bounding_box.width ≤ col → col < w →
        row_covers (c :: rs) col := by
      intro col h1 h2
      obtain ⟨x, hx, hx1, hx2⟩ := hcov col (by omega) h2
      rcases List.mem_cons.mp hx with hxb | hxtail
      · subst hxb
        rw [hbx] at hx2
        omega
      · exact ⟨x, hxtail, hx1, hx2⟩
    have htail_sum : (s + b.bounding_box.width)
        + ((c :: rs).map fun x => x.bounding_box.width).sum = w := by
      simp only [List.map_cons, List.sum_cons] at hsum ⊢
      omega
    obtain ⟨hcx, hchain, hlast⟩ := ih c (s + b.bounding_box.width) w
      (hsorted.sublist (by simp))
      (fun x hx => hwid x (List.mem_cons_of_mem b hx))
      htail_low htail_sum htail_cov
    refine ⟨hbx, ?_, ?_⟩
    · show ((b.bounding_box.x + b.bounding_box.width == c.bounding_box.x)
        && chain_abuts (c :: rs)) = true
      rw [hchain, hbx, hcx]
      simp
    · rw [List.getLast_cons (by simp)]
      exact hlast

theorem takeWhile_congr {α : Type} {p q : α → Bool} (h : ∀ x, p x = q x) :
    ∀ l : List α, l.takeWhile p = l.takeWhile q := by
  intro l
  induction l with
  | nil => rfl
  | cons b rest ih =>
    simp only [List.takeWhile_cons, h b]
    cases q b <;> simp [ih]

theorem dropWhile_congr {α : Type} {p q : α → Bool} (h : ∀ x, p x = q x) :
    ∀ l : List α, l.dropWhile p = l.dropWhile q := by
  intro l
  induction l with
  | nil => rfl
  | cons b rest ih =>
    simp only [List.dropWhile_cons, h b]
    cases q b <;> simp [ih]

theorem same_row_shift {prev b : Block} (h : same_row prev b = true) :
    ∀ x, same_row b x = same_row prev x := by
  intro x
  unfold same_row at h ⊢
  have hy : prev.bounding_box.y = b.bounding_box.y := by simpa using h
  rw [hy]

theorem chunkByAux_eq :
    ∀ (rest : List Block) (prev : Block) (acc : List Block),
      chunkByAux same_row prev acc rest
        = (acc.reverse ++ rest.takeWhile (same_row prev))
          :: chunkBy same_row (rest.dropWhile (same_row prev)) := by
  intro rest
  induction rest with
  | nil => intro prev acc; simp [chunkByAux, chunkBy]
  | cons b rs ih =>
    intro prev acc
    by_cases hb : same_row prev b = true
    · have h1 : chunkByAux same_row prev acc (b :: rs)
          = chunkByAux same_row b (b :: acc) rs := by simp [chunkByAux, hb]
      rw [h1, ih b (b :: acc)]
      rw [takeWhile_congr (same_row_shift hb) rs, dropWhile_congr (same_row_shift hb) rs]
      simp [List.takeWhile_cons, List.dropWhile_cons, hb]
    · have hbf : same_row prev b = false := by
        cases hv : same_row prev b
        · rfl
        · exact absurd hv hb
      have h1 : chunkByAux same_row prev acc (b :: rs)
          = acc.reverse :: chunkByAux same_row b [b] rs := by simp [chunkByAux, hbf]
      have h2 : chunkBy same_row ((b :: rs).dropWhile (same_row prev))
          = chunkByAux same_row b [b] rs := by
        simp [List.dropWhile_cons, hbf, chunkBy]
      have h3 : (b :: rs).takeWhile (same_row prev) = [] := by
        simp [List.takeWhile_cons, hbf]
      rw [h1, h2, h3]
      simp

theorem chunkBy_cons_eq (b : Block) (rest : List Block) :
    chunkBy same_row (b :: rest)
      = (b :: rest.takeWhile (same_row b)) :: chunkBy same_row (rest.dropWhile (same_row b)) := by
  show chunkByAux same_row b [b] rest = _
  rw [chunkByAux_eq rest b [b]]
  simp

theorem rank_settled {b : Block} (h : b.is_settled = true) : b.state.rank = 0 := by
  unfold Block.is_settled at h
  have hs : b.state = BState.Settled := by simpa using h
  rw [hs]
  rfl

theorem pairwise_ydesc_of_sorted {l : List Block} (hs : l.Pairwise block_le)
    (hset : ∀ b ∈ l, b.is_settled = true) :
    l.Pairwise fun a b => b.bounding_box.y ≤ a.bounding_box.y := by
  refine hs.imp_of_mem ?_
  intro a b ha hb hab
  have ra := rank_settled (hset a ha)
  have rb := rank_settled (hset b hb)
  rw [block_le_iff] at hab
  omega

theorem pairwise_xle_same_row {l : List Block} (hs : l.Pairwise block_le)
    (hset : ∀ b ∈ l, b.is_settled = true)
    (y : Nat) (hy : ∀ b ∈ l, b.bounding_box.y = y) :
    l.Pairwise fun a b => a.bounding_box.x ≤ b.bounding_box.x := by
  refine hs.imp_of_mem ?_
  intro a b ha hb hab
  have ra := rank_settled (hset a ha)
  have rb := rank_settled (hset b hb)
  have hya := hy a ha
  have hyb := hy b hb
  rw [block_le_iff] at hab
  omega

theorem dropWhile_y_lt (b : Block) :
    ∀ rest : List Block,
      ((b :: rest).Pairwise fun a c => c.bounding_box.y ≤ a.bounding_box.y) →
      ∀ x ∈ rest.dropWhile (same_row b), x.bounding_box.y < b.bounding_box.y := by
  intro rest
  induction rest with
  | nil => intro _ x hx; simp [List.dropWhile] at hx
  | cons c rs ih =>
    intro hp x hx
    by_cases hc : same_row b c = true
    · rw [List.dropWhile_cons, if_pos hc] at hx
      have hp' : (b :: rs).Pairwise fun a c => c.bounding_box.y ≤ a.bounding_box.y :=
        hp.sublist (by
          refine List.Sublist.cons₂ b ?_
          exact List.sublist_cons_self c rs)
      exact ih hp' x hx
    · have hcf : same_row b c = false := by
        cases hv : same_row b c
        · rfl
        · exact absurd hv hc
      rw [List.dropWhile_cons, hcf] at hx
      simp only [Bool.false_eq_true, if_false] at hx
      have hcb : c.bounding_box.y ≤ b.bounding_box.y :=
        (List.pairwise_cons.mp hp).1 c (List.mem_cons_self c rs)
      have hcne : c.bounding_box.y ≠ b.bounding_box.y := by
        intro he
        unfold same_row at hcf
        rw [he] at hcf
        simp at hcf
      rcases List.mem_cons.mp hx with hxc | hxrs
      · subst hxc; omega
      · have hp'' : (c :: rs).Pairwise fun a c => c.bounding_box.y ≤ a.bounding_box.y :=
          hp.sublist (List.sublist_cons_self b (c :: rs))
        have := (List.pairwise_cons.mp hp'').1 x hxrs
        omega

theorem filter_row_head_eq (b : Block) (rest : List Block)
    (hp : (b :: rest).Pairwise fun a c => c.bounding_box.y ≤ a.bounding_box.y) :
    (b :: rest).filter (fun x => x.bounding_box.y == b.bounding_box.y)
      = b :: rest.takeWhile (same_row b) := by
  rw [List.filter_cons]
  simp only [beq_self_eq_true, if_true]
  congr 1
  conv_lhs => rw [← List.takeWhile_append_dropWhile (p := same_row b) (l := rest)]
  rw [List.filter_append]
  have h1 : (rest.takeWhile (same_row b)).filter
      (fun x => x.bounding_box.y == b.bounding_box.y) = rest.takeWhile (same_row b) := by
    rw [List.filter_eq_self]
    intro x hx
    have := List.mem_takeWhile_imp hx
    unfold same_row at this
    have hbe : b.bounding_box.y = x.bounding_box.y := by simpa using this
    simp [hbe]
  have h2 : (rest.dropWhile (same_row b)).filter
      (fun x => x.bounding_box.y == b.bounding_box.y) = [] := by
    rw [List.filter_eq_nil_iff]
    intro x hx
    have := dropWhile_y_lt b rest hp x hx
    simp only [beq_iff_eq]
    omega
  rw [h1, h2, List.append_nil]

theorem filter_other_row (b : Block) (rest : List Block) (y : Nat)
    (hy : y ≠ b.bounding_box.y) :
    (b :: rest).filter (fun x => x.bounding_box.y == y)
      = (rest.dropWhile (same_row b)).filter (fun x => x.bounding_box.y == y) := by
  rw [List.filter_cons]
  have hbf : (b.bounding_box.y == y) = false := by
    simp only [beq_eq_false_iff_ne]
    omega
  rw [hbf]
  simp only [Bool.false_eq_true, if_false]
  conv_lhs => rw [← List.takeWhile_append_dropWhile (p := same_row b) (l := rest)]
  rw [List.filter_append]
  have h1 : (rest.takeWhile (same_row b)).filter (fun x => x.bounding_box.y == y) = [] := by
    rw [List.filter_eq_nil_iff]
    intro x hx
    have := List.mem_takeWhile_imp hx
    unfold same_row at this
    have hbe : b.bounding_box.y = x.bounding_box.y := by simpa using this
    simp only [beq_iff_eq]
    omega
  rw [h1, List.nil_append]

theorem tiles_row_head (b : Block) (rest : List Block) (w : Nat)
    (hs : (b :: rest).Pairwise block_le)
    (hset : ∀ x ∈ b :: rest, x.is_settled = true)
    (hwid : ∀ x ∈ b :: rest, 0 < x.bounding_box.width)
    (ht : tiles w (b :: rest.takeWhile (same_row b))) :
    b.bounding_box.x = 0
    ∧ chain_abuts (b :: rest.takeWhile (same_row b)) = true
    ∧ ((b :: rest.takeWhile (same_row b)).getLast (by simp)).bounding_box.x
        + ((b :: rest.takeWhile (same_row b)).getLast (by simp)).bounding_box.width = w := by
  have hrow_sub : List.Sublist (b :: rest.takeWhile (same_row b)) (b :: rest) :=
    List.Sublist.cons₂ b (List.takeWhile_sublist (same_row b))
  have hrow_sorted : (b :: rest.takeWhile (same_row b)).Pairwise block_le :=
    hs.sublist hrow_sub
  have hrow_set : ∀ x ∈ b :: rest.takeWhile (same_row b), x.is_settled = true :=
    fun x hx => hset x (hrow_sub.subset hx)
  have hrow_wid : ∀ x ∈ b :: rest.takeWhile (same_row b), 0 < x.bounding_box.width :=
    fun x hx => hwid x (hrow_sub.subset hx)
  have hrow_y : ∀ x ∈ b :: rest.takeWhile (same_row b),
      x.bounding_box.y = b.bounding_box.y := by
    intro x hx
    rcases List.mem_cons.mp hx with hxb | hxt
    · rw [hxb]
    · have := List.mem_takeWhile_imp hxt
      unfold same_row at this
      have h2 : b.bounding_box.y = x.bounding_box.y := by simpa using this
      omega
  have hrow_xle : (b :: rest.takeWhile (same_row b)).Pairwise
      fun p q => p.bounding_box.x ≤ q.bounding_box.x :=
    pairwise_xle_same_row hrow_sorted hrow_set b.bounding_box.y hrow_y
  exact tiles_chain (rest.takeWhile (same_row b)) b 0 w hrow_xle hrow_wid
    (fun x _ => Nat.zero_le _) (by simpa using ht.2.1) (fun c _ hc => ht.2.2 c hc)

theorem scan_rows_iff :
    ∀ (n : Nat) (l : List Block) (w : Nat),
      l.length ≤ n →
      l.Pairwise block_le →
      (∀ b ∈ l, b.is_settled = true) →
      (∀ b ∈ l, 0 < b.bounding_box.width) →
      ∀ y, y ∈ scan_chunks w (chunkBy same_row l)
        ↔ tiles w (l.filter fun x => x.bounding_box.y == y) := by
  intro n
  induction n with
  | zero =>
    intro l w hlen _ _ _ y
    have hnil : l = [] := List.length_eq_zero.mp (Nat.le_zero.mp hlen)
    subst hnil
    simp [chunkBy, scan_chunks, tiles]
  | succ n ihn =>
    intro l w hlen hs hset hwid y
    cases l with
    | nil => simp [chunkBy, scan_chunks, tiles]
    | cons b rest =>
      rw [chunkBy_cons_eq]
      have hydesc : (b :: rest).Pairwise fun a c => c.bounding_box.y ≤ a.bounding_box.y :=
        pairwise_ydesc_of_sorted hs hset
      have hdroplt := dropWhile_y_lt b rest hydesc
      have hdrop_sub : List.Sublist (rest.dropWhile (same_row b)) (b :: rest) :=
        (List.dropWhile_sublist (same_row b)).trans (List.sublist_cons_self b rest)
      have hlen' : (rest.dropWhile (same_row b)).length ≤ n := by
        have h1 := (List.dropWhile_sublist (p := same_row b) (l := rest)).length_le
        simp only [List.length_cons] at hlen
        omega
      have ihdrop := ihn (rest.dropWhile (same_row b)) w hlen'
        (hs.sublist hdrop_sub)
        (fun x hx => hset x (hdrop_sub.subset hx))
        (fun x hx => hwid x (hdrop_sub.subset hx))
      have hset_b : b.is_settled = true := hset b (List.mem_cons_self b rest)
      have hnot_scan_drop : b.bounding_box.y ∉
          scan_chunks w (chunkBy same_row (rest.dropWhile (same_row b))) := by
        intro hmem
        have ht := (ihdrop b.bounding_box.y).mp hmem
        refine ht.1 (List.filter_eq_nil_iff.mpr ?_)
        intro x hx
        have := hdroplt x hx
        simp only [beq_iff_eq]
        omega
      rw [show scan_chunks w ((b :: rest.takeWhile (same_row b))
            :: chunkBy same_row (rest.dropWhile (same_row b)))
          = if !b.is_settled then []
            else if b.bounding_box.x != 0 then
              scan_chunks w (chunkBy same_row (rest.dropWhile (same_row b)))
            else
              match (b :: rest.takeWhile (same_row b)).getLast? with
              | none => scan_chunks w (chunkBy same_row (rest.dropWhile (same_row b)))
              | some lastb =>
                if chain_abuts (b :: rest.takeWhile (same_row b))
                    && (lastb.bounding_box.x + lastb.bounding_box.width == w) then
                  b.bounding_box.y
                    :: scan_chunks w (chunkBy same_row (rest.dropWhile (same_row b)))
                else
                  scan_chunks w (chunkBy same_row (rest.dropWhile (same_row b)))
          from rfl]
      rw [hset_b]
      simp only [Bool.not_true, Bool.false_eq_true, if_false]
      rw [List.getLast?_eq_getLast_of_ne_nil
        (l := b :: rest.takeWhile (same_row b)) (by simp)]
      by_cases hy : y = b.bounding_box.y
      · subst hy
        rw [filter_row_head_eq b rest hydesc]
        by_cases hx0 : b.bounding_box.x = 0
        · rw [show (b.bounding_box.x != 0) = false from by simp [hx0]]
          simp only [Bool.false_eq_true, if_false]
          by_cases hchk : (chain_abuts (b :: rest.takeWhile (same_row b))
              && (((b :: rest.takeWhile (same_row b)).getLast (by simp)).bounding_box.x
                  + ((b :: rest.takeWhile (same_row b)).getLast (by simp)).bounding_box.width
                == w)) = true
          · rw [if_pos hchk]
            have hchain : chain_abuts (b :: rest.takeWhile (same_row b)) = true :=
              (Bool.and_eq_true_iff.mp hchk).1
            have hlastw : ((b :: rest.takeWhile (same_row b)).getLast (by simp)).bounding_box.x
                + ((b :: rest.takeWhile (same_row b)).getLast (by simp)).bounding_box.width
                = w := by
              have := (Bool.and_eq_true_iff.mp hchk).2
              simpa using this
            obtain ⟨hsum, hcov⟩ := chain_tiles (rest.takeWhile (same_row b)) b w hchain hlastw
            constructor
            · intro _
              refine ⟨by simp, ?_, ?_⟩
              · rw [← hsum, hx0]
                simp
              · intro c hc
                exact hcov c (by omega) hc
            · intro _
              exact List.mem_cons_self _ _
          · rw [if_neg hchk]
            constructor
            · intro hmem
              exact absurd hmem hnot_scan_drop
            · intro ht
              obtain ⟨-, hchain, hlast⟩ := tiles_row_head b rest w hs hset hwid ht
              refine absurd ?_ hchk
              rw [hchain, hlast]
              simp
        · rw [show (b.bounding_box.x != 0) = true from by simpa using hx0]
          simp only [if_true]
          constructor
          · intro hmem
            exact absurd hmem hnot_scan_drop
          · intro ht
            obtain ⟨hbx0, -, -⟩ := tiles_row_head b rest w hs hset hwid ht
            exact absurd hbx0 hx0
      · rw [filter_other_row b rest y hy]
        have htail := ihdrop y
        by_cases hx0 : b.bounding_box.x = 0
        · rw [show (b.bounding_box.x != 0) = false from by simp [hx0]]
          simp only [Bool.false_eq_true, if_false]
          by_cases hchk : (chain_abuts (b :: rest.takeWhile (same_row b))
              && (((b :: rest.takeWhile (same_row b)).getLast (by simp)).bounding_box.x
                  + ((b :: rest.takeWhile (same_row b)).getLast (by simp)).bounding_box.width
                == w)) = true
          · rw [if_pos hchk]
            rw [List.mem_cons]
            constructor
            · intro hor
              rcases hor with hbad | hmem
              · exact absurd hbad hy
              · exact htail.mp hmem
            · intro ht
              exact Or.inr (htail.mpr ht)
          · rw [if_neg hchk]
            exact htail
        · rw [show (b.bounding_box.x != 0) = true from by simpa using hx0]
          simp only [if_true]
          exact htail

theorem tiles_perm {w : Nat} {r1 r2 : List Block} (hp : List.Perm r1 r2) :
    tiles w r1 ↔ tiles w r2 := by
  unfold tiles
  constructor
  · rintro ⟨h1, h2, h3⟩
    refine ⟨?_, ?_, ?_⟩
    · intro hnil
      subst hnil
      exact h1 (List.Perm.eq_nil hp)
    · rw [← (hp.map fun b => b.bounding_box.width).sum_eq]
      exact h2
    · intro c hc
      obtain ⟨x, hx, ha, hb⟩ := h3 c hc
      exact ⟨x, hp.mem_iff.mp hx, ha, hb⟩
  · rintro ⟨h1, h2, h3⟩
    refine ⟨?_, ?_, ?_⟩
    · intro hnil
      subst hnil
      exact h1 (List.Perm.eq_nil hp.symm)
    · rw [(hp.map fun b => b.bounding_box.width).sum_eq]
      exact h2
    · intro c hc
      obtain ⟨x, hx, ha, hb⟩ := h3 c hc
      exact ⟨x, hp.mem_iff.mpr hx, ha, hb⟩

theorem removal_rows_iff_row_complete (bd : Board)
    (hset : ∀ b ∈ bd.blocks, b.is_settled = true)
    (hwid : ∀ b ∈ bd.blocks, 0 < b.bounding_box.width) :
    ∀ y, y ∈ bd.removal_rows ↔ row_complete bd y := by
  intro y
  have hperm : List.Perm (List.insertionSort block_le bd.blocks) bd.blocks :=
    List.perm_insertionSort block_le bd.blocks
  have hs : (List.insertionSort block_le bd.blocks).Pairwise block_le :=
    List.sorted_insertionSort block_le bd.blocks
  have h1 := scan_rows_iff (List.insertionSort block_le bd.blocks).length
    (List.insertionSort block_le bd.blocks) bd.width (Nat.le_refl _) hs
    (fun b hb => hset b (hperm.subset hb))
    (fun b hb => hwid b (hperm.subset hb)) y
  unfold Board.removal_rows
  rw [h1]
  exact tiles_perm (hperm.filter _)

/-- C3 (amended): for boards whose blocks are all Settled with nonzero
widths, clear_completed removes exactly the rows whose blocks tile the board
width with no gaps and no overlaps (equivalently: abut consecutively from
x = 0 with final right edge at the width), and the returned blocks are
exactly the blocks of those rows. -/
theorem clear_completed_all_settled_iff (bd : Board)
    (hset : ∀ b ∈ bd.blocks, b.is_settled = true)
    (hwid : ∀ b ∈ bd.blocks, 0 < b.bounding_box.width) :
    (∀ y, y ∈ bd.removal_rows ↔ row_complete bd y)
    ∧ (∀ b, b ∈ (bd.clear_completed).2 ↔ b ∈ bd.blocks ∧ row_complete bd b.bounding_box.y) := by
  have hmain := removal_rows_iff_row_complete bd hset hwid
  refine ⟨hmain, ?_⟩
  intro b
  have hperm : List.Perm (List.insertionSort block_le bd.blocks) bd.blocks :=
    List.perm_insertionSort block_le bd.blocks
  simp only [Board.clear_completed]
  cases hh : (bd.removal_rows).head? with
  | none =>
    have hnil : bd.removal_rows = [] := List.head?_eq_none_iff.mp hh
    simp only [List.not_mem_nil, false_iff]
    rintro ⟨hmem, hcomp⟩
    have := (hmain b.bounding_box.y).mpr hcomp
    rw [hnil] at this
    exact List.not_mem_nil _ this
  | some max_y =>
    rw [List.mem_filter]
    constructor
    · rintro ⟨hmem, hcont⟩
      have hy : b.bounding_box.y ∈ bd.removal_rows := by
        have : List.elem b.bounding_box.y bd.removal_rows = true := hcont
        exact List.elem_iff.mp this
      exact ⟨hperm.mem_iff.mp hmem, (hmain b.bounding_box.y).mp hy⟩
    · rintro ⟨hmem, hcomp⟩
      refine ⟨hperm.mem_iff.mpr hmem, ?_⟩
      have hy := (hmain b.bounding_box.y).mpr hcomp
      exact List.elem_iff.mpr hy

theorem clear_completed_all_settled_witness :
    5 ∈ c3_wit_board.removal_rows ∧ ¬ 3 ∈ c3_wit_board.removal_rows :=
  ⟨((clear_completed_all_settled_iff c3_wit_board (by decide) (by decide)).1 5).mpr (by decide),
    fun h => (by decide : ¬ row_complete c3_wit_board 3)
      (((clear_completed_all_settled_iff c3_wit_board (by decide) (by decide)).1 3).mp h)⟩

end Typetris
